import Mathlib

/-!
Verification of the `tavily_data_pipline` repository's record-shaping,
relay, document-store and research-agent logic against its specification.

The Python sources are shallowly embedded: dictionaries become structures
with `Option`-valued fields (an absent key and an explicit `None` value are
both `none`; the pipeline code only ever reads these keys through
`dict.get`, for which the two coincide except where noted), datetimes and
ISO strings both render to `String`, Python floats that are only copied
(never computed with) become `ℚ`, `uuid.uuid4()` calls draw from an
explicit generator `Nat → String` indexed by call order, and
`datetime.utcnow()` is an explicit `now : String` argument.
-/

namespace Pipeline

/-- Truthiness of an optional string under Python rules: `None` and the
empty string are falsy.  Used by `x or y` expressions in the source. -/
def truthyStr : Option String → Bool
  | none => false
  | some s => !(s == "")

/-- Python `a or b` on two optional strings, as written in
`metadata_streamer.py` (`doc.get("started_at_utc") or doc.get("timestamp_utc")`). -/
def pyOrStr (a b : Option String) : Option String :=
  if truthyStr a then a else b

/-- Embedding of `_ensure_ts` (metadata_streamer.py lines 19-25): a datetime
or string timestamp renders to its string form, `None` falls back to the
current clock (the explicit `now` argument). -/
def ensureTs (ts : Option String) (now : String) : String :=
  match ts with
  | some s => s
  | none => now

/-- One entry of a metadata document's `steps` list (as produced by the
multi-step agent and read by `_step_to_run_step`). -/
structure Step where
  step_name : Option String
  status : Option String
  latency_ms : Option ℚ
  error : Option String
deriving Repr, DecidableEq

/-- One entry of a metadata document's `api_calls` list (read by
`_call_to_api_call`). -/
structure ApiCall where
  query : Option String
  results_returned : Option Nat
  latency_ms : Option ℚ
  called_at : Option String
deriving Repr, DecidableEq

/-- A metadata document as read from MongoDB by the streamer.  Only the keys
the shaping transform actually touches are modelled.  The `steps` and
`api_calls` keys are read in the source exclusively via `doc.get(k, [])`
followed by list truthiness, so an absent key and an empty list behave
identically; both are modelled as `[]`. -/
structure MetaDoc where
  event_id : Option String
  query : Option String
  company_name : Option String
  industry : Option String
  status : Option String
  started_at_utc : Option String
  completed_at_utc : Option String
  timestamp_utc : Option String
  latency_ms : Option ℚ
  num_sources : Option Nat
  error_message : Option String
  steps : List Step
  api_calls : List ApiCall
deriving Repr, DecidableEq

/-- Output record of type `agent_run` (fields of the dict built by
`_to_agent_run`, minus the constant `record_type` tag which lives in
`FRecord.recType`). -/
structure AgentRunRecord where
  run_id : Option String
  company_name : Option String
  industry : Option String
  status : Option String
  started_at : String
  completed_at : String
  total_latency_ms : Option ℚ
  total_api_calls : Nat
  error_message : Option String
deriving Repr, DecidableEq

/-- Output record of type `run_step` (dict built by `_step_to_run_step` or
`_flat_to_run_step`). -/
structure RunStepRecord where
  step_id : String
  run_id : Option String
  step_name : String
  status : Option String
  latency_ms : Option ℚ
  error_message : Option String
deriving Repr, DecidableEq

/-- Output record of type `api_call` (dict built by `_call_to_api_call` or
`_flat_to_api_call`). -/
structure ApiCallRecord where
  call_id : String
  run_id : Option String
  query_used : Option String
  results_returned : Nat
  latency_ms : Option ℚ
  called_at : String
deriving Repr, DecidableEq

/-- A record produced by the shaping transform: one of the three shapes. -/
inductive FRecord where
  | agentRun (r : AgentRunRecord)
  | runStep (r : RunStepRecord)
  | apiCall (r : ApiCallRecord)
deriving Repr, DecidableEq

/-- The `record_type` field each builder writes into its dict. -/
def FRecord.recType : FRecord → String
  | .agentRun _ => "agent_run"
  | .runStep _ => "run_step"
  | .apiCall _ => "api_call"

/-- The `run_id` field of a produced record (every builder sets it to
`doc.get("event_id")`). -/
def FRecord.runId : FRecord → Option String
  | .agentRun r => r.run_id
  | .runStep r => r.run_id
  | .apiCall r => r.run_id

/-- Embedding of `_to_agent_run` (metadata_streamer.py lines 32-47). -/
def toAgentRun (now : String) (doc : MetaDoc) : AgentRunRecord :=
  { run_id := doc.event_id
    company_name := doc.company_name <|> doc.query
    industry := doc.industry
    status := doc.status
    started_at := ensureTs (pyOrStr doc.started_at_utc doc.timestamp_utc) now
    completed_at := ensureTs (pyOrStr doc.completed_at_utc doc.timestamp_utc) now
    total_latency_ms := doc.latency_ms
    total_api_calls :=
      if doc.api_calls.isEmpty then doc.num_sources.getD 0 else doc.api_calls.length
    error_message := doc.error_message }

/-- Embedding of `_step_to_run_step` (lines 50-59); `sid` is the
`str(uuid.uuid4())` drawn for this record. -/
def stepToRunStep (sid : String) (doc : MetaDoc) (s : Step) : RunStepRecord :=
  { step_id := sid
    run_id := doc.event_id
    step_name := s.step_name.getD "research"
    status := s.status <|> doc.status
    latency_ms := s.latency_ms <|> doc.latency_ms
    error_message := s.error }

/-- Embedding of `_call_to_api_call` (lines 62-71). -/
def callToApiCall (cid now : String) (doc : MetaDoc) (c : ApiCall) : ApiCallRecord :=
  { call_id := cid
    run_id := doc.event_id
    query_used := c.query <|> doc.query
    results_returned := c.results_returned.getD (doc.num_sources.getD 0)
    latency_ms := c.latency_ms <|> doc.latency_ms
    called_at := ensureTs (pyOrStr c.called_at doc.timestamp_utc) now }

/-- Embedding of `_flat_to_run_step` (lines 78-88): the synthetic single
step for legacy flat metadata. -/
def flatToRunStep (sid : String) (doc : MetaDoc) : RunStepRecord :=
  { step_id := sid
    run_id := doc.event_id
    step_name := "research"
    status := doc.status
    latency_ms := doc.latency_ms
    error_message := doc.error_message }

/-- Embedding of `_flat_to_api_call` (lines 91-102): the synthetic single
API call for legacy flat metadata. -/
def flatToApiCall (cid now : String) (doc : MetaDoc) : ApiCallRecord :=
  { call_id := cid
    run_id := doc.event_id
    query_used := doc.query
    results_returned := doc.num_sources.getD 0
    latency_ms := doc.latency_ms
    called_at := ensureTs doc.timestamp_utc now }

/-- The `run_step` records appended by `_metadata_to_records` (lines 117-122),
with uuid indices 0, 1, ... in loop order. -/
def stepRecords (gen : Nat → String) (doc : MetaDoc) : List RunStepRecord :=
  if doc.steps.isEmpty then [flatToRunStep (gen 0) doc]
  else doc.steps.enum.map (fun p => stepToRunStep (gen p.1) doc p.2)

/-- The `api_call` records appended by `_metadata_to_records` (lines 124-129);
their uuids are drawn after all step uuids. -/
def callRecords (gen : Nat → String) (now : String) (doc : MetaDoc) : List ApiCallRecord :=
  let base := (stepRecords gen doc).length
  if doc.api_calls.isEmpty then [flatToApiCall (gen base) now doc]
  else doc.api_calls.enum.map (fun p => callToApiCall (gen (base + p.1)) now doc p.2)

/-- Embedding of `_metadata_to_records` (lines 109-131): the agent_run record
followed by all run_step records followed by all api_call records. -/
def metadataToRecords (gen : Nat → String) (now : String) (doc : MetaDoc) : List FRecord :=
  FRecord.agentRun (toAgentRun now doc)
    :: ((stepRecords gen doc).map FRecord.runStep
      ++ (callRecords gen now doc).map FRecord.apiCall)

/-- Project a produced record onto its run_step payload, if it is one. -/
def FRecord.stepPart : FRecord → Option RunStepRecord
  | .runStep r => some r
  | _ => none

/-- Project a produced record onto its api_call payload, if it is one. -/
def FRecord.callPart : FRecord → Option ApiCallRecord
  | .apiCall r => some r
  | _ => none

/-- Forget the freshly generated `step_id` of a run_step record. -/
def eraseStepId (r : RunStepRecord) : RunStepRecord := { r with step_id := "" }

/-- Forget the freshly generated `call_id` of an api_call record. -/
def eraseCallId (r : ApiCallRecord) : ApiCallRecord := { r with call_id := "" }

lemma enum_map_forget {α β : Type} (l : List α) (f : α → β) :
    l.enum.map (fun p => f p.2) = l.map f := by
  calc l.enum.map (fun p => f p.2) = (l.enum.map Prod.snd).map f := by
        rw [List.map_map]; simp [Function.comp]
    _ = l.map f := by rw [List.enum_map_snd]

lemma stepRecords_run_id (gen : Nat → String) (doc : MetaDoc) :
    ∀ r ∈ stepRecords gen doc, r.run_id = doc.event_id := by
  intro r hr
  unfold stepRecords at hr
  split at hr
  · simp only [List.mem_singleton] at hr
    subst hr; rfl
  · simp only [List.mem_map] at hr
    obtain ⟨p, _, rfl⟩ := hr
    rfl

lemma callRecords_run_id (gen : Nat → String) (now : String) (doc : MetaDoc) :
    ∀ r ∈ callRecords gen now doc, r.run_id = doc.event_id := by
  intro r hr
  unfold callRecords at hr
  split at hr
  · simp only [List.mem_singleton] at hr
    subst hr; rfl
  · simp only [List.mem_map] at hr
    obtain ⟨p, _, rfl⟩ := hr
    rfl

lemma stepRecords_length (gen : Nat → String) (doc : MetaDoc) :
    (stepRecords gen doc).length = if doc.steps.isEmpty then 1 else doc.steps.length := by
  unfold stepRecords
  split <;> simp [List.enum_length]

lemma callRecords_length (gen : Nat → String) (now : String) (doc : MetaDoc) :
    (callRecords gen now doc).length
      = if doc.api_calls.isEmpty then 1 else doc.api_calls.length := by
  unfold callRecords
  split <;> simp [List.enum_length]

lemma isEmpty_false_of_ne_nil {α : Type} {l : List α} (h : l ≠ []) : l.isEmpty = false := by
  cases l with
  | nil => exact absurd rfl h
  | cons a t => rfl

/-- C1: for an enriched document with S ≥ 1 steps and C ≥ 1 api_calls, the
shaping transform emits exactly 1 + S + C records, the single agent_run
record comes first, and every record carries the document's run identifier
(`event_id`), hence every run_step/api_call record references the one
agent_run record. -/
theorem c1_enriched_fanout (gen : Nat → String) (now : String) (doc : MetaDoc)
    (hS : doc.steps ≠ []) (hC : doc.api_calls ≠ []) :
    (metadataToRecords gen now doc).length = 1 + doc.steps.length + doc.api_calls.length
    ∧ (metadataToRecords gen now doc).head? = some (.agentRun (toAgentRun now doc))
    ∧ ∀ r ∈ metadataToRecords gen now doc, r.runId = (toAgentRun now doc).run_id := by
  refine ⟨?_, rfl, ?_⟩
  · simp [metadataToRecords, stepRecords_length, callRecords_length,
      isEmpty_false_of_ne_nil hS, isEmpty_false_of_ne_nil hC]
    omega
  · intro r hr
    simp only [metadataToRecords, List.mem_cons, List.mem_append, List.mem_map] at hr
    rcases hr with rfl | ⟨s, hs, rfl⟩ | ⟨c, hc, rfl⟩
    · rfl
    · exact stepRecords_run_id gen doc s hs
    · exact callRecords_run_id gen now doc c hc

/-- A deterministic stand-in for the uuid generator, used by witnesses. -/
def sampleGen : Nat → String := fun n => "uuid-" ++ toString n

/-- A concrete enriched metadata document (one step, one api call). -/
def enrichedDoc : MetaDoc :=
  { event_id := some "ev-1"
    query := some "Nvidia"
    company_name := some "NVIDIA Corp"
    industry := some "Semiconductors"
    status := some "success"
    started_at_utc := some "2024-01-01T00:00:00"
    completed_at_utc := some "2024-01-01T00:00:01"
    timestamp_utc := some "2024-01-01T00:00:01"
    latency_ms := some 450
    num_sources := some 2
    error_message := none
    steps := [⟨some "search_overview", some "success", some 120, none⟩]
    api_calls := [⟨some "Nvidia company overview", some 3, some 80, some "2024-01-01T00:00:00"⟩] }

/-- Witness for C1 at a concrete enriched document. -/
theorem c1_enriched_fanout_witness :
    enrichedDoc.steps ≠ [] ∧ enrichedDoc.api_calls ≠ []
    ∧ ((metadataToRecords sampleGen "2024" enrichedDoc).length
          = 1 + enrichedDoc.steps.length + enrichedDoc.api_calls.length
      ∧ (metadataToRecords sampleGen "2024" enrichedDoc).head?
          = some (.agentRun (toAgentRun "2024" enrichedDoc))
      ∧ ∀ r ∈ metadataToRecords sampleGen "2024" enrichedDoc,
          r.runId = (toAgentRun "2024" enrichedDoc).run_id) :=
  ⟨by decide, by decide,
    c1_enriched_fanout sampleGen "2024" enrichedDoc (by decide) (by decide)⟩

/-- C2: for a legacy flat document (empty/absent steps and api_calls lists)
the transform emits exactly 3 records — the agent_run record, one synthetic
run_step named "research" carrying the run's own status and latency, and one
synthetic api_call carrying the run's query, num_sources and latency. -/
theorem c2_legacy_fanout (gen : Nat → String) (now : String) (doc : MetaDoc)
    (hS : doc.steps = []) (hC : doc.api_calls = []) :
    metadataToRecords gen now doc =
      [.agentRun (toAgentRun now doc),
       .runStep (flatToRunStep (gen 0) doc),
       .apiCall (flatToApiCall (gen 1) now doc)]
    ∧ (flatToRunStep (gen 0) doc).step_name = "research"
    ∧ (flatToRunStep (gen 0) doc).status = doc.status
    ∧ (flatToRunStep (gen 0) doc).latency_ms = doc.latency_ms
    ∧ (flatToApiCall (gen 1) now doc).query_used = doc.query
    ∧ (flatToApiCall (gen 1) now doc).results_returned = doc.num_sources.getD 0
    ∧ (flatToApiCall (gen 1) now doc).latency_ms = doc.latency_ms := by
  refine ⟨?_, rfl, rfl, rfl, rfl, rfl, rfl⟩
  simp [metadataToRecords, stepRecords, callRecords, hS, hC]

/-- A concrete legacy flat metadata document (no steps/api_calls lists). -/
def legacyDoc : MetaDoc :=
  { event_id := some "ev-2"
    query := some "Nvidia"
    company_name := none
    industry := none
    status := some "success"
    started_at_utc := none
    completed_at_utc := none
    timestamp_utc := some "2024-01-01T00:00:01"
    latency_ms := some 450
    num_sources := some 2
    error_message := none
    steps := []
    api_calls := [] }

/-- Witness for C2 at a concrete legacy document. -/
theorem c2_legacy_fanout_witness :
    legacyDoc.steps = [] ∧ legacyDoc.api_calls = []
    ∧ (metadataToRecords sampleGen "2024" legacyDoc =
        [.agentRun (toAgentRun "2024" legacyDoc),
         .runStep (flatToRunStep (sampleGen 0) legacyDoc),
         .apiCall (flatToApiCall (sampleGen 1) "2024" legacyDoc)]
      ∧ (flatToRunStep (sampleGen 0) legacyDoc).step_name = "research"
      ∧ (flatToRunStep (sampleGen 0) legacyDoc).status = legacyDoc.status
      ∧ (flatToRunStep (sampleGen 0) legacyDoc).latency_ms = legacyDoc.latency_ms
      ∧ (flatToApiCall (sampleGen 1) "2024" legacyDoc).query_used = legacyDoc.query
      ∧ (flatToApiCall (sampleGen 1) "2024" legacyDoc).results_returned
          = legacyDoc.num_sources.getD 0
      ∧ (flatToApiCall (sampleGen 1) "2024" legacyDoc).latency_ms
          = legacyDoc.latency_ms) :=
  ⟨rfl, rfl, c2_legacy_fanout sampleGen "2024" legacyDoc rfl rfl⟩

lemma filterMap_stepPart_runStep (l : List RunStepRecord) :
    (l.map FRecord.runStep).filterMap FRecord.stepPart = l := by
  induction l with
  | nil => rfl
  | cons a t ih => simp [List.filterMap_cons, FRecord.stepPart, ih]

lemma filterMap_stepPart_apiCall (l : List ApiCallRecord) :
    (l.map FRecord.apiCall).filterMap FRecord.stepPart = [] := by
  induction l with
  | nil => rfl
  | cons a t ih => simp [List.filterMap_cons, FRecord.stepPart, ih]

lemma filterMap_callPart_runStep (l : List RunStepRecord) :
    (l.map FRecord.runStep).filterMap FRecord.callPart = [] := by
  induction l with
  | nil => rfl
  | cons a t ih => simp [List.filterMap_cons, FRecord.callPart, ih]

lemma filterMap_callPart_apiCall (l : List ApiCallRecord) :
    (l.map FRecord.apiCall).filterMap FRecord.callPart = l := by
  induction l with
  | nil => rfl
  | cons a t ih => simp [List.filterMap_cons, FRecord.callPart, ih]

lemma recType_runStep_replicate (l : List RunStepRecord) :
    (l.map FRecord.runStep).map FRecord.recType = List.replicate l.length "run_step" := by
  induction l with
  | nil => rfl
  | cons a t ih => simp [FRecord.recType, ih, List.replicate_succ]

lemma recType_apiCall_replicate (l : List ApiCallRecord) :
    (l.map FRecord.apiCall).map FRecord.recType = List.replicate l.length "api_call" := by
  induction l with
  | nil => rfl
  | cons a t ih => simp [FRecord.recType, ih, List.replicate_succ]

/-- C10: for every document the transform's output is non-empty, starts with
the single agent_run record, lists all run_step records (in input step
order) before all api_call records (in input api_call order), and every
record's run_id equals the document's event_id — also when `event_id` is
absent, in which case every run_id is the same `none`. -/
theorem c10_output_shape (gen : Nat → String) (now : String) (doc : MetaDoc) :
    metadataToRecords gen now doc ≠ []
    ∧ (metadataToRecords gen now doc).head? = some (.agentRun (toAgentRun now doc))
    ∧ (metadataToRecords gen now doc).map FRecord.recType
        = "agent_run"
          :: (List.replicate (if doc.steps.isEmpty then 1 else doc.steps.length) "run_step"
            ++ List.replicate
                (if doc.api_calls.isEmpty then 1 else doc.api_calls.length) "api_call")
    ∧ ((metadataToRecords gen now doc).filterMap FRecord.stepPart).map eraseStepId
        = (if doc.steps.isEmpty then [flatToRunStep "" doc]
           else doc.steps.map (stepToRunStep "" doc))
    ∧ ((metadataToRecords gen now doc).filterMap FRecord.callPart).map eraseCallId
        = (if doc.api_calls.isEmpty then [flatToApiCall "" now doc]
           else doc.api_calls.map (callToApiCall "" now doc))
    ∧ ∀ r ∈ metadataToRecords gen now doc, r.runId = doc.event_id := by
  refine ⟨by simp [metadataToRecords], rfl, ?_, ?_, ?_, ?_⟩
  · simp only [metadataToRecords, List.map_cons, List.map_append, FRecord.recType]
    rw [← stepRecords_length gen doc, ← callRecords_length gen now doc,
      recType_runStep_replicate, recType_apiCall_replicate]
  · simp only [metadataToRecords, List.filterMap_cons, FRecord.stepPart,
      List.filterMap_append, filterMap_stepPart_runStep, filterMap_stepPart_apiCall,
      List.append_nil]
    unfold stepRecords
    split
    · rfl
    · rw [List.map_map]
      exact enum_map_forget doc.steps (stepToRunStep "" doc)
  · simp only [metadataToRecords, List.filterMap_cons, FRecord.callPart,
      List.filterMap_append, filterMap_callPart_runStep, filterMap_callPart_apiCall,
      List.nil_append]
    unfold callRecords
    split
    · rfl
    · rw [List.map_map]
      exact enum_map_forget doc.api_calls (callToApiCall "" now doc)
  · intro r hr
    simp only [metadataToRecords, List.mem_cons, List.mem_append, List.mem_map] at hr
    rcases hr with rfl | ⟨s, hs, rfl⟩ | ⟨c, hc, rfl⟩
    · rfl
    · exact stepRecords_run_id gen doc s hs
    · exact callRecords_run_id gen now doc c hc

/-- A legacy flat document whose status is "success" but whose stored
`error_message` is non-null; `_to_agent_run` copies the field verbatim. -/
def successWithErrorDoc : MetaDoc :=
  { event_id := some "ev-3"
    query := some "Nvidia"
    company_name := none
    industry := none
    status := some "success"
    started_at_utc := none
    completed_at_utc := none
    timestamp_utc := some "2024-01-01T00:00:01"
    latency_ms := some 450
    num_sources := some 2
    error_message := some "boom"
    steps := []
    api_calls := [] }

/-- C4 counterexample: a document on the legacy path (no api_calls) with
status "success" whose AgentRunRecord error_message is NOT null —
`_to_agent_run` copies `doc.get("error_message")` unconditionally, so the
claim's "status success implies null error_message" fails for a document
that stores a non-null error_message alongside a success status. -/
theorem c4_error_message_counterexample :
    successWithErrorDoc.api_calls = []
    ∧ successWithErrorDoc.status = some "success"
    ∧ (toAgentRun "2024" successWithErrorDoc).error_message ≠ none := by
  refine ⟨rfl, rfl, ?_⟩
  decide

/-- C4 (amended): on the legacy path (empty/absent api_calls list) the
AgentRunRecord's total_api_calls equals the document's num_sources
(defaulting to 0 when absent); with a non-empty api_calls list it equals
that list's length; and the record's error_message is copied verbatim from
the document — in particular it is null exactly when the document's
error_message is null, as it is for every collector-produced success run. -/
theorem c4_total_api_calls (now : String) (doc : MetaDoc) :
    (doc.api_calls = [] → (toAgentRun now doc).total_api_calls = doc.num_sources.getD 0)
    ∧ (doc.api_calls ≠ [] →
        (toAgentRun now doc).total_api_calls = doc.api_calls.length)
    ∧ (toAgentRun now doc).error_message = doc.error_message := by
  refine ⟨?_, ?_, rfl⟩
  · intro h
    simp [toAgentRun, h]
  · intro h
    simp [toAgentRun, isEmpty_false_of_ne_nil h]

/-- Witness for C4 (amended) at the Nvidia legacy scenario: 2 sources,
status success, latency 450.0, null error_message. -/
theorem c4_total_api_calls_witness :
    legacyDoc.api_calls = []
    ∧ (toAgentRun "2024" legacyDoc).total_api_calls = legacyDoc.num_sources.getD 0
    ∧ (toAgentRun "2024" legacyDoc).total_api_calls = 2
    ∧ (toAgentRun "2024" legacyDoc).error_message = none :=
  ⟨rfl, (c4_total_api_calls "2024" legacyDoc).1 rfl, by decide, by decide⟩

/-- A document supplying none of the timestamp keys: every timestamp in its
shaped records falls back to the transform-time clock. -/
def timestamplessDoc : MetaDoc :=
  { event_id := some "ev-4"
    query := some "Nvidia"
    company_name := none
    industry := none
    status := some "success"
    started_at_utc := none
    completed_at_utc := none
    timestamp_utc := none
    latency_ms := some 450
    num_sources := some 2
    error_message := none
    steps := []
    api_calls := [] }

/-- C8 counterexample: for a document carrying no timestamp keys, two calls
of the transform (necessarily at two different `utcnow()` readings, here two
distinct `now` values) produce AgentRunRecords that differ in `started_at` /
`completed_at`, not only in the freshly generated step/call identifiers —
refuting the claim that the two outputs are identical up to ids for every
input document. -/
theorem c8_counterexample :
    (metadataToRecords sampleGen "2024-01-01T00:00:00" timestamplessDoc).head?
      ≠ (metadataToRecords sampleGen "2024-01-01T00:00:01" timestamplessDoc).head? := by
  decide

lemma ensureTs_pyOr_truthy (a : Option String) {b : Option String}
    (hb : truthyStr b = true) (n1 n2 : String) :
    ensureTs (pyOrStr a b) n1 = ensureTs (pyOrStr a b) n2 := by
  unfold pyOrStr
  split
  · next h =>
    unfold truthyStr at h
    cases a with
    | none => simp at h
    | some s => rfl
  · unfold truthyStr at hb
    cases b with
    | none => simp at hb
    | some s => rfl

lemma ensureTs_truthy {b : Option String} (hb : truthyStr b = true) (n1 n2 : String) :
    ensureTs b n1 = ensureTs b n2 := by
  unfold truthyStr at hb
  cases b with
  | none => simp at hb
  | some s => rfl

/-- The idempotence-relevant part of a produced record: everything except
the freshly generated identifiers. -/
def eraseIds : FRecord → FRecord
  | .agentRun r => .agentRun r
  | .runStep r => .runStep (eraseStepId r)
  | .apiCall r => .apiCall (eraseCallId r)

lemma map_eraseIds_records (g : Nat → String) (now : String) (doc : MetaDoc) :
    (metadataToRecords g now doc).map eraseIds
      = FRecord.agentRun (toAgentRun now doc)
        :: ((stepRecords g doc).map (fun r => FRecord.runStep (eraseStepId r))
          ++ (callRecords g now doc).map (fun r => FRecord.apiCall (eraseCallId r))) := by
  simp only [metadataToRecords, List.map_cons, List.map_append, List.map_map]
  rfl

lemma stepRecords_erase (g1 g2 : Nat → String) (doc : MetaDoc) :
    (stepRecords g1 doc).map (fun r => FRecord.runStep (eraseStepId r))
      = (stepRecords g2 doc).map (fun r => FRecord.runStep (eraseStepId r)) := by
  unfold stepRecords
  split
  · rfl
  · rw [List.map_map, List.map_map]
    apply List.map_congr_left
    intro p _
    rfl

lemma callRecords_erase {doc : MetaDoc} (hts : truthyStr doc.timestamp_utc = true)
    (g1 g2 : Nat → String) (n1 n2 : String) :
    (callRecords g1 n1 doc).map (fun r => FRecord.apiCall (eraseCallId r))
      = (callRecords g2 n2 doc).map (fun r => FRecord.apiCall (eraseCallId r)) := by
  unfold callRecords
  simp only []
  split
  · simp only [List.map_cons, List.map_nil]
    unfold eraseCallId flatToApiCall
    rw [ensureTs_truthy hts n1 n2]
  · rw [List.map_map, List.map_map]
    apply List.map_congr_left
    intro p _
    simp only [Function.comp]
    unfold eraseCallId callToApiCall
    rw [ensureTs_pyOr_truthy p.2.called_at hts n1 n2]

/-- C8 (amended): for every document whose `timestamp_utc` is present and
non-empty (as every collector-produced document's is), two calls of the
transform — with independent uuid draws and independent clock readings —
produce identical record lists up to the freshly generated step_id/call_id
fields; in particular the two AgentRunRecords are identical. -/
theorem c8_shaping_idempotent (g1 g2 : Nat → String) (n1 n2 : String) (doc : MetaDoc)
    (hts : truthyStr doc.timestamp_utc = true) :
    toAgentRun n1 doc = toAgentRun n2 doc
    ∧ (metadataToRecords g1 n1 doc).map eraseIds
        = (metadataToRecords g2 n2 doc).map eraseIds := by
  have hrun : toAgentRun n1 doc = toAgentRun n2 doc := by
    unfold toAgentRun
    rw [ensureTs_pyOr_truthy doc.started_at_utc hts n1 n2,
      ensureTs_pyOr_truthy doc.completed_at_utc hts n1 n2]
  refine ⟨hrun, ?_⟩
  rw [map_eraseIds_records, map_eraseIds_records, hrun,
    stepRecords_erase g1 g2 doc, callRecords_erase hts g1 g2 n1 n2]

/-- Witness for C8 (amended) at a concrete legacy document with a present
timestamp, two different uuid generators and two different clock values. -/
theorem c8_shaping_idempotent_witness :
    truthyStr legacyDoc.timestamp_utc = true
    ∧ (toAgentRun "2024-01-01T00:00:02" legacyDoc
        = toAgentRun "2024-01-01T00:00:03" legacyDoc
      ∧ (metadataToRecords sampleGen "2024-01-01T00:00:02" legacyDoc).map eraseIds
          = (metadataToRecords (fun n => "v2-" ++ toString n)
              "2024-01-01T00:00:03" legacyDoc).map eraseIds) :=
  ⟨by decide,
    c8_shaping_idempotent sampleGen (fun n => "v2-" ++ toString n)
      "2024-01-01T00:00:02" "2024-01-01T00:00:03" legacyDoc (by decide)⟩

/-!
Embedding of `FirehoseClient.send_batch` (firehose_client.py lines 100-158).
The batch size is the literal 25 from the source.  The AWS responses are an
oracle `Nat → Nat → PutResult` mapping (batch index, attempt index) to what
`put_record_batch` did: a response with a `FailedPutCount`, or a
`ClientError` (security-token errors re-raised as ValueError, others
retried and finally re-raised as RuntimeError).  The model returns the
Python return value together with a trace of the side effects performed —
each `put_record_batch` call's payload and each `time.sleep` duration — and
uses `Except` for the raise paths.
-/

/-- Structural worker for `chunks25`; the fuel is an upper bound on the
list length, so the middle case is never reached from `chunks25`. -/
def chunksFuel {α : Type} : Nat → List α → List (List α)
  | _, [] => []
  | 0, _ :: _ => []
  | f + 1, x :: xs => (x :: xs.take 24) :: chunksFuel f (xs.drop 24)

/-- Split a list into consecutive chunks of 25, as
`for i in range(0, len(records), batch_size)` does with `batch_size = 25`. -/
def chunks25 {α : Type} (l : List α) : List (List α) := chunksFuel l.length l

lemma chunksFuel_fuel_irrel {α : Type} :
    ∀ (f g : Nat) (l : List α), l.length ≤ f → l.length ≤ g →
    chunksFuel f l = chunksFuel g l := by
  intro f
  induction f with
  | zero =>
    intro g l hf hg
    cases l with
    | nil => cases g <;> rfl
    | cons x xs => simp at hf
  | succ n ih =>
    intro g l hf hg
    cases l with
    | nil => cases g <;> rfl
    | cons x xs =>
      cases g with
      | zero => simp at hg
      | succ m =>
        simp only [chunksFuel]
        simp only [List.length_cons] at hf hg
        have hd : (xs.drop 24).length ≤ xs.length := by
          simp only [List.length_drop]; omega
        rw [ih m (xs.drop 24) (by omega) (by simp only [List.length_drop]; omega)]

lemma chunks25_cons {α : Type} (x : α) (xs : List α) :
    chunks25 (x :: xs) = (x :: xs.take 24) :: chunks25 (xs.drop 24) := by
  unfold chunks25
  simp only [List.length_cons, chunksFuel]
  rw [chunksFuel_fuel_irrel xs.length (xs.drop 24).length (xs.drop 24)
    (by simp only [List.length_drop]; omega) (le_refl _)]

/-- Outcome of one `put_record_batch` call against the delivery stream. -/
inductive PutResult where
  | response (failedPutCount : Nat)
  | tokenError (msg : String)
  | clientError (msg : String)
deriving Repr, DecidableEq

/-- Whether the call returned a response at all (possibly with failed
records) rather than raising a ClientError. -/
def PutResult.isResponse : PutResult → Bool
  | .response _ => true
  | _ => false

/-- A side effect of `send_batch`: one `put_record_batch` call with its
payload, or one `time.sleep` with its duration in seconds. -/
inductive SendEvent (α : Type) where
  | put (batch : List α)
  | sleep (seconds : ℚ)
deriving Repr, DecidableEq

/-- Recognizer for `put` trace events. -/
def isPutEv {α : Type} : SendEvent α → Bool
  | .put _ => true
  | .sleep _ => false

/-- The constructor arguments `max_retries` and `retry_delay` of
`FirehoseClient`. -/
structure FirehoseCfg where
  max_retries : Nat
  retry_delay : ℚ
deriving Repr, DecidableEq

/-- The `for attempt in range(self.max_retries)` loop body for one batch
(firehose_client.py lines 126-156).  `a` is the current attempt index, `r`
the number of attempts left (`max_retries - a`); the result is whether the
batch was counted as sent, plus the trace of puts and sleeps.  A
FailedPutCount of zero breaks with success; a non-zero count sleeps
`retry_delay * 2 ** attempt` and retries, or breaks with partial failure on
the last attempt; a security-token ClientError raises immediately; another
ClientError sleeps and retries, or raises RuntimeError on the last attempt. -/
def putLoop {α : Type} (rdelay : ℚ) (orc : Nat → PutResult) (batch : List α) :
    Nat → Nat → Except String (Bool × List (SendEvent α))
  | _, 0 => .ok (false, [])
  | a, r + 1 =>
    match orc a with
    | .response 0 => .ok (true, [.put batch])
    | .response (_ + 1) =>
      if r = 0 then .ok (false, [.put batch])
      else
        match putLoop rdelay orc batch (a + 1) r with
        | .ok (b, tr) => .ok (b, .put batch :: .sleep (rdelay * 2 ^ a) :: tr)
        | .error e => .error e
    | .tokenError msg => .error ("ValueError: AWS rejected the security token: " ++ msg)
    | .clientError msg =>
      if r = 0 then .error ("RuntimeError: Firehose put_record_batch failed: " ++ msg)
      else
        match putLoop rdelay orc batch (a + 1) r with
        | .ok (b, tr) => .ok (b, .put batch :: .sleep (rdelay * 2 ^ a) :: tr)
        | .error e => .error e

/-- The outer loop of `send_batch` over the 25-sized chunks; `i` is the
chunk index fed to the oracle.  Accumulates the sent count and the trace. -/
def sendGo {α : Type} (cfg : FirehoseCfg) (orc : Nat → Nat → PutResult) :
    List (List α) → Nat → Except String (Nat × List (SendEvent α))
  | [], _ => .ok (0, [])
  | b :: rest, i =>
    match putLoop cfg.retry_delay (orc i) b 0 cfg.max_retries with
    | .error e => .error e
    | .ok (succeeded, tr) =>
      match sendGo cfg orc rest (i + 1) with
      | .error e => .error e
      | .ok (sent, tr2) => .ok ((if succeeded then b.length else 0) + sent, tr ++ tr2)

/-- Embedding of `FirehoseClient.send_batch` (lines 100-158). -/
def sendBatch {α : Type} (cfg : FirehoseCfg) (orc : Nat → Nat → PutResult)
    (records : List α) : Except String (Nat × List (SendEvent α)) :=
  if records.isEmpty then .ok (0, []) else sendGo cfg orc (chunks25 records) 0

lemma chunks25_flatten {α : Type} : ∀ l : List α, (chunks25 l).flatten = l
  | [] => rfl
  | x :: xs => by
    rw [chunks25_cons, List.flatten_cons, chunks25_flatten (xs.drop 24)]
    simp [List.take_append_drop]
termination_by l => l.length
decreasing_by simp [List.length_drop]; omega

lemma chunks25_length {α : Type} : ∀ l : List α,
    (chunks25 l).length = (l.length + 24) / 25
  | [] => by
    simp only [chunks25, chunksFuel, List.length_nil]
  | x :: xs => by
    rw [chunks25_cons]
    simp only [List.length_cons, chunks25_length (xs.drop 24), List.length_drop]
    omega
termination_by l => l.length
decreasing_by simp [List.length_drop]; omega

lemma chunks25_mem {α : Type} : ∀ (l : List α) (b : List α), b ∈ chunks25 l →
    b.length ≤ 25 ∧ b ≠ []
  | [], b => by intro hb; simp [chunks25, chunksFuel] at hb
  | x :: xs, b => by
    intro hb
    rw [chunks25_cons] at hb
    rcases List.mem_cons.mp hb with rfl | hb
    · constructor
      · simp only [List.length_cons]
        have := List.length_take_le 24 xs
        omega
      · simp
    · exact chunks25_mem (xs.drop 24) b hb
termination_by l => l.length
decreasing_by simp [List.length_drop]; omega

lemma putLoop_first_ok {α : Type} (rdelay : ℚ) (orc : Nat → PutResult) (batch : List α)
    (a : Nat) (h : orc a = .response 0) : ∀ r, 0 < r →
    putLoop rdelay orc batch a r = .ok (true, [.put batch]) := by
  intro r hr
  cases r with
  | zero => omega
  | succ n => rw [putLoop, h]

lemma sendGo_all_ok {α : Type} (cfg : FirehoseCfg) (orc : Nat → Nat → PutResult)
    (hmr : 0 < cfg.max_retries) (horc : ∀ i a, orc i a = .response 0) :
    ∀ (bs : List (List α)) (i : Nat),
    sendGo cfg orc bs i = .ok ((bs.map List.length).sum, bs.map SendEvent.put) := by
  intro bs
  induction bs with
  | nil => intro i; rfl
  | cons b rest ih =>
    intro i
    rw [sendGo, putLoop_first_ok cfg.retry_delay (orc i) b 0 (horc i 0) cfg.max_retries hmr,
      ih (i + 1)]
    simp

/-- C3: with a positive retry budget and a delivery stream that accepts
every call, `send_batch` issues exactly ⌈n/25⌉ `put_record_batch` calls
whose payloads are the 25-sized chunks of the input in order (so they
partition the input), and returns the full record count. -/
theorem c3_batch_partition {α : Type} (cfg : FirehoseCfg) (orc : Nat → Nat → PutResult)
    (records : List α) (hmr : 0 < cfg.max_retries)
    (horc : ∀ i a, orc i a = .response 0) :
    sendBatch cfg orc records = .ok (records.length, (chunks25 records).map SendEvent.put)
    ∧ (chunks25 records).length = (records.length + 24) / 25
    ∧ (chunks25 records).flatten = records
    ∧ ∀ b ∈ chunks25 records, b.length ≤ 25 ∧ b ≠ [] := by
  refine ⟨?_, chunks25_length records, chunks25_flatten records, chunks25_mem records⟩
  unfold sendBatch
  split
  · next h =>
    have : records = [] := by
      cases records with
      | nil => rfl
      | cons x xs => simp at h
    subst this
    rw [chunks25]
    rfl
  · rw [sendGo_all_ok cfg orc hmr horc (chunks25 records) 0]
    have hlen : ((chunks25 records).map List.length).sum = records.length := by
      rw [← List.length_flatten, chunks25_flatten]
    rw [hlen]

/-- Witness for C3: 30 records, batch size 25, an always-accepting stream —
exactly 2 put calls, of sizes 25 and 5. -/
theorem c3_batch_partition_witness :
    0 < (FirehoseCfg.mk 3 1).max_retries
    ∧ (sendBatch (FirehoseCfg.mk 3 1) (fun _ _ => .response 0) (List.range 30)
        = .ok ((List.range 30).length, (chunks25 (List.range 30)).map SendEvent.put)
      ∧ (chunks25 (List.range 30)).length = ((List.range 30).length + 24) / 25
      ∧ (chunks25 (List.range 30)).flatten = List.range 30
      ∧ ∀ b ∈ chunks25 (List.range 30), b.length ≤ 25 ∧ b ≠ [])
    ∧ (chunks25 (List.range 30)).map List.length = [25, 5] :=
  ⟨by decide,
    c3_batch_partition (FirehoseCfg.mk 3 1) (fun _ _ => .response 0) (List.range 30)
      (by decide) (fun _ _ => rfl),
    by decide⟩

lemma putLoop_response {α : Type} (rdelay : ℚ) (orc : Nat → PutResult) (batch : List α)
    (ho : ∀ a, (orc a).isResponse = true) :
    ∀ r a, ∃ ok tr, putLoop rdelay orc batch a r = .ok (ok, tr)
      ∧ tr.countP isPutEv ≤ r
      ∧ ∀ e ∈ tr, (∃ bb, e = .put bb)
          ∨ ∃ j, a ≤ j ∧ j + 1 < a + r ∧ e = .sleep (rdelay * 2 ^ j) := by
  intro r
  induction r with
  | zero =>
    intro a
    exact ⟨false, [], rfl, by simp, by simp⟩
  | succ n ih =>
    intro a
    have hoa := ho a
    match horc : orc a with
    | .tokenError m => rw [horc] at hoa; simp [PutResult.isResponse] at hoa
    | .clientError m => rw [horc] at hoa; simp [PutResult.isResponse] at hoa
    | .response 0 =>
      refine ⟨true, [.put batch], by rw [putLoop, horc], by simp [isPutEv], ?_⟩
      intro e he
      simp only [List.mem_singleton] at he
      exact Or.inl ⟨batch, he⟩
    | .response (k + 1) =>
      by_cases hn : n = 0
      · subst hn
        refine ⟨false, [.put batch], ?_, by simp [isPutEv], ?_⟩
        · rw [putLoop, horc]
          simp
        · intro e he
          simp only [List.mem_singleton] at he
          exact Or.inl ⟨batch, he⟩
      · obtain ⟨ok, tr, heq, hcount, hev⟩ := ih (a + 1)
        refine ⟨ok, .put batch :: .sleep (rdelay * 2 ^ a) :: tr, ?_, ?_, ?_⟩
        · rw [putLoop, horc, if_neg hn, heq]
        · simp [List.countP_cons, isPutEv]
          omega
        · intro e he
          simp only [List.mem_cons] at he
          rcases he with rfl | rfl | he
          · exact Or.inl ⟨batch, rfl⟩
          · exact Or.inr ⟨a, le_refl a, by omega, rfl⟩
          · rcases hev e he with h | ⟨j, hj1, hj2, hj3⟩
            · exact Or.inl h
            · exact Or.inr ⟨j, by omega, by omega, hj3⟩

lemma sendGo_response {α : Type} (cfg : FirehoseCfg) (orc : Nat → Nat → PutResult)
    (ho : ∀ i a, (orc i a).isResponse = true) :
    ∀ (bs : List (List α)) (i : Nat),
    ∃ sent tr, sendGo cfg orc bs i = .ok (sent, tr)
      ∧ sent ≤ (bs.map List.length).sum
      ∧ tr.countP isPutEv ≤ bs.length * cfg.max_retries
      ∧ ∀ e ∈ tr, (∃ bb, e = .put bb)
          ∨ ∃ j, j + 1 < cfg.max_retries ∧ e = .sleep (cfg.retry_delay * 2 ^ j) := by
  intro bs
  induction bs with
  | nil =>
    intro i
    exact ⟨0, [], rfl, le_refl 0, by simp, by simp⟩
  | cons b rest ih =>
    intro i
    obtain ⟨ok, tr1, heq1, hcount1, hev1⟩ :=
      putLoop_response cfg.retry_delay (orc i) b (ho i) cfg.max_retries 0
    obtain ⟨sent, tr2, heq2, hsent, hcount2, hev2⟩ := ih (i + 1)
    refine ⟨(if ok then b.length else 0) + sent, tr1 ++ tr2, ?_, ?_, ?_, ?_⟩
    · rw [sendGo, heq1, heq2]
    · simp only [List.map_cons, List.sum_cons]
      have : (if ok then b.length else 0) ≤ b.length := by split <;> omega
      omega
    · rw [List.countP_append]
      simp only [List.length_cons]
      have : (rest.length + 1) * cfg.max_retries
          = cfg.max_retries + rest.length * cfg.max_retries := by ring
      omega
    · intro e he
      rcases List.mem_append.mp he with h | h
      · rcases hev1 e h with hp | ⟨j, _, hj2, hj3⟩
        · exact Or.inl hp
        · exact Or.inr ⟨j, by omega, hj3⟩
      · exact hev2 e h

/-- C6: when every `put_record_batch` attempt yields a response (possibly
with a non-zero FailedPutCount — the transient-failure signal), `send_batch`
never raises: it retries each batch at most `max_retries` times, every
backoff sleep lasts `retry_delay * 2 ** attempt` seconds for some attempt
index with at least one attempt still to come, and it returns a sent count
of at most the number of records offered (partial success). -/
theorem c6_bounded_retry {α : Type} (cfg : FirehoseCfg) (orc : Nat → Nat → PutResult)
    (records : List α) (ho : ∀ i a, (orc i a).isResponse = true) :
    ∃ sent tr, sendBatch cfg orc records = .ok (sent, tr)
      ∧ sent ≤ records.length
      ∧ tr.countP isPutEv ≤ (chunks25 records).length * cfg.max_retries
      ∧ ∀ e ∈ tr, (∃ b, e = .put b)
          ∨ ∃ a, a + 1 < cfg.max_retries ∧ e = .sleep (cfg.retry_delay * 2 ^ a) := by
  unfold sendBatch
  split
  · exact ⟨0, [], rfl, by omega, by simp, by simp⟩
  · obtain ⟨sent, tr, heq, hsent, hcount, hev⟩ :=
      sendGo_response cfg orc ho (chunks25 records) 0
    refine ⟨sent, tr, heq, ?_, hcount, hev⟩
    have : ((chunks25 records).map List.length).sum = records.length := by
      rw [← List.length_flatten, chunks25_flatten]
    omega

/-- Oracle for the C6 witness: the first batch always reports failed
records, later batches succeed — so the relay gives up on batch 0 after
`max_retries` attempts and reports partial success. -/
def flakyOrc : Nat → Nat → PutResult :=
  fun i _ => if i = 0 then .response 1 else .response 0

/-- The sent-count of a send_batch result (0 when it raised). -/
def sentOf {α : Type} : Except String (Nat × List (SendEvent α)) → Nat
  | .ok (s, _) => s
  | .error _ => 0

/-- Witness for C6: 30 records, first chunk failing every attempt — the
relay returns (no exception) with a partial count of 5 < 30 after at most
3 attempts per batch. -/
theorem c6_bounded_retry_witness :
    (∀ i a, (flakyOrc i a).isResponse = true)
    ∧ (∃ sent tr,
        sendBatch (FirehoseCfg.mk 3 1) flakyOrc (List.range 30) = .ok (sent, tr)
        ∧ sent ≤ (List.range 30).length
        ∧ tr.countP isPutEv ≤ (chunks25 (List.range 30)).length * (FirehoseCfg.mk 3 1).max_retries
        ∧ ∀ e ∈ tr, (∃ b, e = .put b)
            ∨ ∃ a, a + 1 < (FirehoseCfg.mk 3 1).max_retries
                ∧ e = .sleep ((FirehoseCfg.mk 3 1).retry_delay * 2 ^ a))
    ∧ sentOf (sendBatch (FirehoseCfg.mk 3 1) flakyOrc (List.range 30)) = 5 :=
  ⟨fun i a => by unfold flakyOrc; split <;> rfl,
    c6_bounded_retry (FirehoseCfg.mk 3 1) flakyOrc (List.range 30)
      (fun i a => by unfold flakyOrc; split <;> rfl),
    by decide⟩

/-!
Embedding of `CompanyResearcher.research` (toy_agent.py lines 204-251).
External behaviour — the two Tavily searches, the optional OpenAI call, the
clock and the latencies — is an explicit `ResearchWorld` oracle; a raised
exception from an external call is an `Except.error` carrying `str(e)`.
The embedding of `research` itself is a total function into
`ResearchState`: that is the "never raises past its boundary" contract,
with each failure captured in the corresponding step's status/error
fields.  An absent JSON key and an explicit JSON null in the summarizer
output are conflated (the claims do not distinguish them).
-/

/-- A raw Tavily result entry, fields read via `s.get(k, default)`. -/
structure RawSource where
  title : Option String
  url : Option String
  content : Option String
  score : Option ℚ
deriving Repr, DecidableEq

/-- A formatted source as built in `_tavily_step`. -/
structure Source where
  title : String
  url : String
  content : String
  score : ℚ
deriving Repr, DecidableEq

/-- The formatting applied to each raw result in `_tavily_step` lines 107-115. -/
def fmtSource (s : RawSource) : Source :=
  { title := s.title.getD ""
    url := s.url.getD ""
    content := s.content.getD ""
    score := s.score.getD 0 }

/-- The `StepResult` TypedDict of toy_agent.py. -/
structure StepResult where
  step_name : String
  status : String
  latency_ms : ℚ
  error : Option String
deriving Repr, DecidableEq

/-- The `ApiCallResult` TypedDict of toy_agent.py. -/
structure ApiCallResult where
  provider : String
  query : String
  results_returned : Nat
  latency_ms : ℚ
  called_at : String
deriving Repr, DecidableEq

/-- The `ResearchState` TypedDict of toy_agent.py. -/
structure ResearchState where
  query : String
  company_name : Option String
  industry : Option String
  summary : Option String
  sources : List Source
  steps : List StepResult
  api_calls : List ApiCallResult
  research_complete : Bool
  error : Option String
deriving Repr, DecidableEq

/-- The three fields the summarize step extracts from the model's JSON. -/
structure SummarizeOut where
  company_name : Option String
  industry : Option String
  summary : Option String
deriving Repr, DecidableEq

/-- Oracle for one `research` invocation: outcome of each external call
(`Except.error` = the exception's message), whether an OpenAI client was
configured, the measured latencies and the clock readings. -/
structure ResearchWorld where
  overviewResult : Except String (List RawSource)
  competitorsResult : Except String (List RawSource)
  openaiConfigured : Bool
  summarizeResult : Except String SummarizeOut
  lat1 : ℚ
  lat2 : ℚ
  lat3 : ℚ
  now1 : String
  now2 : String
  now3 : String

/-- Embedding of `_tavily_step` (lines 98-133): runs one search, appends a
step record (success, or failure with the captured message) and an API-call
record, and returns the formatted sources (empty on failure). -/
def tavilyStep (name q : String) (res : Except String (List RawSource)) (lat : ℚ)
    (now : String) (st : ResearchState) : ResearchState × List Source :=
  match res with
  | .ok raw =>
    let fmt := raw.map fmtSource
    ({ st with
        steps := st.steps ++ [⟨name, "success", lat, none⟩]
        api_calls := st.api_calls ++ [⟨"tavily", q, fmt.length, lat, now⟩] }, fmt)
  | .error e =>
    ({ st with
        steps := st.steps ++ [⟨name, "failure", lat, some e⟩]
        api_calls := st.api_calls ++ [⟨"tavily", q, 0, lat, now⟩] }, [])

/-- Embedding of `_summarize_step` (lines 135-198): skipped when no OpenAI
client is configured (company_name falls back to the query, no API call is
recorded); otherwise a success fills company_name/industry/summary from the
parsed JSON, a failure of the call or of the JSON parsing records a failure
step with the message and falls back to the query. -/
def summarizeStep (cfg : Bool) (q : String) (res : Except String SummarizeOut)
    (lat : ℚ) (now : String) (st : ResearchState) : ResearchState :=
  if cfg = false then
    { st with
        steps := st.steps ++ [⟨"summarize", "skipped", 0, none⟩]
        company_name := some q }
  else
    match res with
    | .ok p =>
      { st with
          company_name := some (p.company_name.getD q)
          industry := p.industry
          summary := p.summary
          steps := st.steps ++ [⟨"summarize", "success", lat, none⟩]
          api_calls := st.api_calls ++ [⟨"openai", "summarize: " ++ q, 1, lat, now⟩] }
    | .error e =>
      { st with
          company_name := some q
          steps := st.steps ++ [⟨"summarize", "failure", lat, some e⟩]
          api_calls := st.api_calls ++ [⟨"openai", "summarize: " ++ q, 0, lat, now⟩] }

/-- Character-list version of Python `str.startswith`. -/
def charsStartWith : List Char → List Char → Bool
  | _, [] => true
  | [], _ :: _ => false
  | c :: cs, p :: ps => c == p && charsStartWith cs ps

/-- Python `s.startswith(pre)`, computed on the underlying characters. -/
def pyStartsWith (s pre : String) : Bool := charsStartWith s.data pre.data

/-- The `has_sources` computation of `research` (lines 240-244). -/
def hasSources (steps : List StepResult) : Bool :=
  steps.any (fun s => pyStartsWith s.step_name "search_" && s.status == "success")

/-- Embedding of `CompanyResearcher.research` (lines 204-251).  The outer
`try/except` of the source can only fire on a non-external failure (none
exists in the embedded body), so `error` stays `None` and all external
failures surface in the step records. -/
def research (w : ResearchWorld) (q : String) : ResearchState :=
  let st0 : ResearchState :=
    { query := q
      company_name := none
      industry := none
      summary := none
      sources := []
      steps := []
      api_calls := []
      research_complete := false
      error := none }
  let r1 := tavilyStep "search_overview" (q ++ " company overview")
    w.overviewResult w.lat1 w.now1 st0
  let r2 := tavilyStep "search_competitors" (q ++ " competitors market landscape")
    w.competitorsResult w.lat2 w.now2 r1.1
  let st3 := { r2.1 with sources := r1.2 ++ r2.2 }
  let st4 := summarizeStep w.openaiConfigured q w.summarizeResult w.lat3 w.now3 st3
  { st4 with research_complete := hasSources st4.steps }

/-- The step status `_tavily_step`/`_summarize_step` records for an
external-call outcome. -/
def stepStatusOf {β : Type} : Except String β → String
  | .ok _ => "success"
  | .error _ => "failure"

/-- The step error field recorded for an external-call outcome. -/
def stepErrorOf {β : Type} : Except String β → Option String
  | .ok _ => none
  | .error e => some e

/-- The formatted sources a Tavily outcome contributes. -/
def sourcesOf : Except String (List RawSource) → List Source
  | .ok raw => raw.map fmtSource
  | .error _ => []

/-- C5: for every oracle behaviour of the external services (including
every failure) and every query, `research` returns a `ResearchState` — the
embedding is total, the "never raises" contract — whose `error` field the
outer catch never sets, whose three step records capture each external
call's failure message and status, whose completion flag is set exactly
when at least one search step succeeded, and whose sources are those of the
two searches in order. -/
theorem c5_research_never_raises (w : ResearchWorld) (q : String) :
    (research w q).error = none
    ∧ (research w q).steps.length = 3
    ∧ (research w q).steps[0]? = some ⟨"search_overview", stepStatusOf w.overviewResult,
        w.lat1, stepErrorOf w.overviewResult⟩
    ∧ (research w q).steps[1]? = some ⟨"search_competitors", stepStatusOf w.competitorsResult,
        w.lat2, stepErrorOf w.competitorsResult⟩
    ∧ (w.openaiConfigured = true →
        (research w q).steps[2]? = some ⟨"summarize", stepStatusOf w.summarizeResult,
          w.lat3, stepErrorOf w.summarizeResult⟩)
    ∧ (w.openaiConfigured = false →
        (research w q).steps[2]? = some ⟨"summarize", "skipped", 0, none⟩)
    ∧ (research w q).research_complete
        = (w.overviewResult.isOk || w.competitorsResult.isOk)
    ∧ (research w q).sources = sourcesOf w.overviewResult ++ sourcesOf w.competitorsResult := by
  obtain ⟨ov, comp, cfg, summ, lat1, lat2, lat3, now1, now2, now3⟩ := w
  cases ov <;> cases comp <;> cases cfg <;> cases summ <;>
    refine ⟨rfl, rfl, rfl, rfl, ?_, ?_, rfl, rfl⟩ <;>
    intro h <;> first | rfl | exact nomatch h

/-- A concrete oracle: overview search fails, competitor search returns one
result, OpenAI configured and failing on JSON parsing. -/
def sampleWorld : ResearchWorld :=
  { overviewResult := .error "Tavily search failed: timeout"
    competitorsResult := .ok [⟨some "AMD", some "https://amd.com", some "...", some 1⟩]
    openaiConfigured := true
    summarizeResult := .error "Expecting value: line 1 column 1 (char 0)"
    lat1 := 120
    lat2 := 80
    lat3 := 50
    now1 := "2024-01-01T00:00:00"
    now2 := "2024-01-01T00:00:01"
    now3 := "2024-01-01T00:00:02"}

/-- Witness for C5 at a concrete failing oracle. -/
theorem c5_research_never_raises_witness :
    (research sampleWorld "Nvidia").error = none
    ∧ (research sampleWorld "Nvidia").steps.length = 3
    ∧ (research sampleWorld "Nvidia").steps[0]? = some ⟨"search_overview",
        stepStatusOf sampleWorld.overviewResult, sampleWorld.lat1,
        stepErrorOf sampleWorld.overviewResult⟩
    ∧ (research sampleWorld "Nvidia").steps[1]? = some ⟨"search_competitors",
        stepStatusOf sampleWorld.competitorsResult, sampleWorld.lat2,
        stepErrorOf sampleWorld.competitorsResult⟩
    ∧ (sampleWorld.openaiConfigured = true →
        (research sampleWorld "Nvidia").steps[2]? = some ⟨"summarize",
          stepStatusOf sampleWorld.summarizeResult, sampleWorld.lat3,
          stepErrorOf sampleWorld.summarizeResult⟩)
    ∧ (sampleWorld.openaiConfigured = false →
        (research sampleWorld "Nvidia").steps[2]? = some ⟨"summarize", "skipped", 0, none⟩)
    ∧ (research sampleWorld "Nvidia").research_complete
        = (sampleWorld.overviewResult.isOk || sampleWorld.competitorsResult.isOk)
    ∧ (research sampleWorld "Nvidia").sources
        = sourcesOf sampleWorld.overviewResult ++ sourcesOf sampleWorld.competitorsResult :=
  c5_research_never_raises sampleWorld "Nvidia"

/-!
Embedding of `MongoDBClient.get_metadata_by_date_range` (mongodb_client.py
lines 162-198).  A stored document is reduced to its sortable
`timestamp_utc` (an `Int`, datetimes being totally ordered), a document
identity, and an opaque payload.  `find(query).sort("timestamp_utc", 1).limit(n)`
becomes filter + ascending insertion sort + take.  The Python signature
requires both `start_date` and `end_date`; a call site may omit one only at
the price of a `TypeError`, which the embedding makes explicit by taking
the arguments as `Option`s and returning `Except` (`none` = argument not
supplied). -/

/-- A document in the metadata collection, as the date-range query sees it. -/
structure StoredDoc where
  docId : Nat
  timestamp_utc : Int
  payload : String
deriving Repr, DecidableEq

/-- Ordering by the `timestamp_utc` field, the sort key of the query. -/
def tsLe (a b : StoredDoc) : Prop := a.timestamp_utc ≤ b.timestamp_utc

instance : DecidableRel tsLe := fun a b => by unfold tsLe; infer_instance

instance : IsTotal StoredDoc tsLe := ⟨fun a b => le_total a.timestamp_utc b.timestamp_utc⟩

instance : IsTrans StoredDoc tsLe := ⟨fun _ _ _ h1 h2 => le_trans h1 h2⟩

/-- The body of `get_metadata_by_date_range` once both bounds are in hand:
inclusive range filter, ascending sort on `timestamp_utc`, limit. -/
def dateRangeQuery (store : List StoredDoc) (s e : Int) (lim : Nat) : List StoredDoc :=
  (List.insertionSort tsLe
    (store.filter (fun d => s ≤ d.timestamp_utc && d.timestamp_utc ≤ e))).take lim

/-- Embedding of the `get_metadata_by_date_range(start_date, end_date, limit)`
call interface: both date arguments are required positional parameters, so a
call supplying only one is a Python `TypeError` before the body runs. -/
def getMetadataByDateRange (store : List StoredDoc) (start_date end_date : Option Int)
    (lim : Nat) : Except String (List StoredDoc) :=
  match start_date, end_date with
  | some s, some e => .ok (dateRangeQuery store s e lim)
  | _, _ =>
    .error "TypeError: get_metadata_by_date_range() missing required positional argument"

/-- Modelled from the spec: the behaviour the spec's scenario ascribes to an
end-date-only query — "defaults the start bound to a fixed epoch floor".
No such default exists anywhere in the repository; the epoch floor is taken
as the Unix epoch (timestamp 0). -/
def dateRangeEndOnlySpec (store : List StoredDoc) (e : Int) (lim : Nat) : List StoredDoc :=
  dateRangeQuery store 0 e lim

/-- A concrete three-document store. -/
def sampleStore : List StoredDoc :=
  [⟨1, 50, "a"⟩, ⟨2, 10, "b"⟩, ⟨3, 30, "c"⟩]

/-- C7 counterexample: supplying only an end date does not give the
spec-modelled epoch-floor query result — the call is a `TypeError`, since
`start_date` is a required parameter with no default. -/
theorem c7_end_only_counterexample :
    getMetadataByDateRange sampleStore none (some 40) 10
      ≠ .ok (dateRangeEndOnlySpec sampleStore 40 10) := by
  simp [getMetadataByDateRange]

/-- C7 (amended): the date-range query requires both bounds — an end-only
call raises a TypeError instead of defaulting the start bound — and, when
both bounds are supplied, it returns exactly the documents whose timestamp
lies in the inclusive range (up to the limit), sorted ascending by the
timestamp field. -/
theorem c7_date_range_sorted (store : List StoredDoc) (s e : Int) (lim : Nat) :
    getMetadataByDateRange store (some s) (some e) lim
        = .ok (dateRangeQuery store s e lim)
    ∧ List.Sorted (· ≤ ·) ((dateRangeQuery store s e lim).map StoredDoc.timestamp_utc)
    ∧ (∀ d ∈ dateRangeQuery store s e lim,
        d ∈ store ∧ s ≤ d.timestamp_utc ∧ d.timestamp_utc ≤ e)
    ∧ (∀ (e' : Int) (lim' : Nat), ∃ msg,
        getMetadataByDateRange store none (some e') lim' = .error msg) := by
  refine ⟨rfl, ?_, ?_, fun e' lim' => ⟨_, rfl⟩⟩
  · have hsorted : List.Sorted tsLe
        (List.insertionSort tsLe
          (store.filter (fun d => s ≤ d.timestamp_utc && d.timestamp_utc ≤ e))) :=
      List.sorted_insertionSort tsLe _
    have htake : List.Sorted tsLe (dateRangeQuery store s e lim) :=
      List.Pairwise.sublist (List.take_sublist _ _) hsorted
    rw [List.Sorted, List.pairwise_map]
    exact htake
  · intro d hd
    have hd1 : d ∈ List.insertionSort tsLe
        (store.filter (fun d => s ≤ d.timestamp_utc && d.timestamp_utc ≤ e)) :=
      List.take_subset _ _ hd
    have hd2 : d ∈ store.filter (fun d => s ≤ d.timestamp_utc && d.timestamp_utc ≤ e) :=
      (List.perm_insertionSort tsLe _).mem_iff.mp hd1
    have hd3 := List.mem_filter.mp hd2
    refine ⟨hd3.1, ?_, ?_⟩
    · have := hd3.2
      simp only [Bool.and_eq_true, decide_eq_true_eq] at this
      exact this.1
    · have := hd3.2
      simp only [Bool.and_eq_true, decide_eq_true_eq] at this
      exact this.2

/-- Witness for C7 (amended) at the concrete store: the in-range documents
come back sorted ascending by timestamp. -/
theorem c7_date_range_sorted_witness :
    dateRangeQuery sampleStore 5 40 10 = [⟨2, 10, "b"⟩, ⟨3, 30, "c"⟩]
    ∧ List.Sorted (· ≤ ·) ((dateRangeQuery sampleStore 5 40 10).map StoredDoc.timestamp_utc) :=
  ⟨by decide, (c7_date_range_sorted sampleStore 5 40 10).2.1⟩

/-- Witness for C10: at a concrete legacy document the record-type sequence
is agent_run, one run_step, one api_call. -/
theorem c10_output_shape_witness :
    (metadataToRecords sampleGen "2024" legacyDoc).map FRecord.recType
      = "agent_run" :: (List.replicate 1 "run_step" ++ List.replicate 1 "api_call") :=
  (c10_output_shape sampleGen "2024" legacyDoc).2.2.1

/-!
Embedding of `FirehoseClient._record_to_firehose_format` (firehose_client.py
lines 82-86): `(json.dumps(clean) + "\n").encode("utf-8")` after dropping
the `_id` key.  JSON values are modelled by an inductive `Json` (numbers as
integers: the pipeline's floats are only ever copied through and floating
point is out of scope for the shallow embedding); strings are character
lists.  `serJson` mirrors `json.dumps` with its default separators
`", "`/`": "` and default `ensure_ascii=True` escaping (including surrogate
pairs for astral characters); `utf8Encode` mirrors `str.encode("utf-8")`.
The parsing direction (`json.loads` on the decoded payload) is a
specification-side recursive-descent parser for the canonical grammar the
serializer emits.
-/

/-- A JSON value: null, booleans, integers, strings, arrays, objects
(objects keep their key order like Python dicts). -/
inductive Json where
  | null
  | bool (b : Bool)
  | num (n : Int)
  | str (s : List Char)
  | arr (items : List Json)
  | obj (fields : List (List Char × Json))

/-- Lowercase hex digit, as `"%04x"` formatting uses (codepoint arithmetic:
48 is the zero digit, 87 + 10 is the letter a). -/
def hexDig (n : Nat) : Char :=
  if n < 10 then Char.ofNat (48 + n) else Char.ofNat (87 + n)

/-- Value of a hex digit (upper or lower case accepted, as json.loads does),
read off the codepoint ranges. -/
def hexVal (c : Char) : Option Nat :=
  if 48 ≤ c.toNat ∧ c.toNat ≤ 57 then some (c.toNat - 48)
  else if 97 ≤ c.toNat ∧ c.toNat ≤ 102 then some (c.toNat - 87)
  else if 65 ≤ c.toNat ∧ c.toNat ≤ 70 then some (c.toNat - 55)
  else none

/-- The four hex digits of `"\\u%04x" % n`. -/
def hex4 (n : Nat) : List Char :=
  [hexDig (n / 4096 % 16), hexDig (n / 256 % 16), hexDig (n / 16 % 16), hexDig (n % 16)]

/-- Decimal digit test (`'0' ≤ c ≤ '9'`). -/
def isDigitCh (c : Char) : Bool := 48 ≤ c.toNat && c.toNat ≤ 57

/-- Decimal digits of a natural number, most significant first (`str(n)`). -/
def natChars (n : Nat) : List Char :=
  if n < 10 then [hexDig n] else natChars (n / 10) ++ [hexDig (n % 10)]
termination_by n
decreasing_by omega

/-- `str(n)` for a Python int, as json.dumps renders integers. -/
def serInt (n : Int) : List Char :=
  if n < 0 then '-' :: natChars n.natAbs else natChars n.toNat

/-- One character under json.dumps' default `ensure_ascii=True` escaping:
the two-character escapes for quote, backslash and the five control
shorthands, `\\u00xx` for remaining control characters, printable ASCII
verbatim, `\\uxxxx` for other BMP characters and a surrogate pair for
astral characters. -/
def escapeChar (c : Char) : List Char :=
  if c = '"' then ['\\', '"']
  else if c = '\\' then ['\\', '\\']
  else if c = '\x08' then ['\\', 'b']
  else if c = '\x0c' then ['\\', 'f']
  else if c = '\n' then ['\\', 'n']
  else if c = '\r' then ['\\', 'r']
  else if c = '\t' then ['\\', 't']
  else if c.toNat < 0x20 then '\\' :: 'u' :: hex4 c.toNat
  else if c.toNat < 0x7f then [c]
  else if c.toNat < 0x10000 then '\\' :: 'u' :: hex4 c.toNat
  else ('\\' :: 'u' :: hex4 (0xD800 + (c.toNat - 0x10000) / 0x400))
    ++ ('\\' :: 'u' :: hex4 (0xDC00 + (c.toNat - 0x10000) % 0x400))

/-- Escape every character of a string body. -/
def escStr : List Char → List Char
  | [] => []
  | c :: t => escapeChar c ++ escStr t

/-- The keyword `null` as characters. -/
def nullChars : List Char := ['n', 'u', 'l', 'l']

/-- The keyword `true` as characters. -/
def trueChars : List Char := ['t', 'r', 'u', 'e']

/-- The keyword `false` as characters. -/
def falseChars : List Char := ['f', 'a', 'l', 's', 'e']

mutual

/-- json.dumps with default separators: the serialized value. -/
def serJson : Json → List Char
  | .null => nullChars
  | .bool true => trueChars
  | .bool false => falseChars
  | .num n => serInt n
  | .str s => '"' :: (escStr s ++ ['"'])
  | .arr [] => ['[', ']']
  | .arr (x :: t) => '[' :: (serJson x ++ serItemsTail t)
  | .obj [] => ['\x7b', '\x7d']
  | .obj ((k, v) :: t) =>
    '\x7b' :: '"' :: (escStr k ++ ('"' :: ':' :: ' ' :: (serJson v ++ serFieldsTail t)))

/-- The remaining array items, each preceded by `", "`, then `]`. -/
def serItemsTail : List Json → List Char
  | [] => [']']
  | x :: t => ',' :: ' ' :: (serJson x ++ serItemsTail t)

/-- The remaining object fields, each rendered `", \"key\": value"`, then
the closing brace. -/
def serFieldsTail : List (List Char × Json) → List Char
  | [] => ['\x7d']
  | (k, v) :: t =>
    ',' :: ' ' :: '"' :: (escStr k ++ ('"' :: ':' :: ' ' :: (serJson v ++ serFieldsTail t)))

end

mutual

/-- Fuel needed by the parser to re-read a serialized value. -/
def weightJ : Json → Nat
  | .str s => s.length + 2
  | .arr (x :: t) => 1 + weightJ x + weightTail t
  | .obj ((k, v) :: t) => 1 + (k.length + 1) + weightJ v + weightFields t
  | _ => 1

/-- Fuel needed to re-read a serialized items tail. -/
def weightTail : List Json → Nat
  | [] => 1
  | x :: t => 1 + weightJ x + weightTail t

/-- Fuel needed to re-read a serialized fields tail. -/
def weightFields : List (List Char × Json) → Nat
  | [] => 1
  | (k, v) :: t => 1 + (k.length + 1) + weightJ v + weightFields t

end

/-- Accumulate leading decimal digits (`int()` of the digit run), returning
the value and the unconsumed suffix. -/
def parseDigits : List Char → Nat → Nat × List Char
  | [], acc => (acc, [])
  | c :: cs, acc =>
    if isDigitCh c then parseDigits cs (10 * acc + (c.toNat - 48)) else (acc, c :: cs)

/-- Parse a JSON integer: optional minus sign, then at least one digit. -/
def parseNum (input : List Char) : Option (Json × List Char) :=
  match input with
  | [] => none
  | c :: rest =>
    if c = '-' then
      match rest with
      | [] => none
      | d :: _ =>
        if isDigitCh d then
          let p := parseDigits rest 0
          some (.num (-(p.1 : Int)), p.2)
        else none
    else if isDigitCh c then
      let p := parseDigits (c :: rest) 0
      some (.num ((p.1 : Int)), p.2)
    else none

/-- Read four hex digits. -/
def readHex4 : List Char → Option (Nat × List Char)
  | c0 :: c1 :: c2 :: c3 :: rest =>
    match hexVal c0, hexVal c1, hexVal c2, hexVal c3 with
    | some a, some b, some c, some d => some (4096 * a + 256 * b + 16 * c + d, rest)
    | _, _, _, _ => none
  | _ => none

/-- The two-character escape shorthands of JSON strings (quote, backslash
and slash stand for themselves; the letters for the control characters). -/
def unescSimple (e : Char) : Option Char :=
  if e = '"' ∨ e = '\\' ∨ e = '/' then some e
  else if e = 'b' then some '\x08'
  else if e = 'f' then some '\x0c'
  else if e = 'n' then some '\n'
  else if e = 'r' then some '\r'
  else if e = 't' then some '\t'
  else none

/-- Parse the body of a JSON string up to its closing quote, undoing the
escapes (including surrogate pairs).  The fuel bounds the number of
characters produced. -/
def parseStrChars : Nat → List Char → Option (List Char × List Char)
  | 0, _ => none
  | _ + 1, [] => none
  | f + 1, c :: rest =>
    if c = '"' then some ([], rest)
    else if c = '\\' then
      match rest with
      | [] => none
      | e :: rest2 =>
        if e = 'u' then
          match readHex4 rest2 with
          | none => none
          | some (h, r2) =>
            if 0xD800 ≤ h ∧ h < 0xDC00 then
              match r2 with
              | e2 :: u2 :: r3 =>
                if e2 = '\\' ∧ u2 = 'u' then
                  match readHex4 r3 with
                  | some (lo, r4) =>
                    if 0xDC00 ≤ lo ∧ lo < 0xE000 then
                      (parseStrChars f r4).map (fun p =>
                        (Char.ofNat (0x10000 + (h - 0xD800) * 0x400 + (lo - 0xDC00)) :: p.1,
                          p.2))
                    else none
                  | none => none
                else none
              | _ => none
            else if 0xDC00 ≤ h ∧ h < 0xE000 then none
            else (parseStrChars f r2).map (fun p => (Char.ofNat h :: p.1, p.2))
        else
          match unescSimple e with
          | some uc => (parseStrChars f rest2).map (fun p => (uc :: p.1, p.2))
          | none => none
    else (parseStrChars f rest).map (fun p => (c :: p.1, p.2))

mutual

/-- Recursive-descent parser for the canonical JSON text `serJson` emits
(json.dumps' default separators; the embedding of json.loads restricted to
that grammar).  Returns the value and the unconsumed suffix. -/
def parseJson : Nat → List Char → Option (Json × List Char)
  | 0, _ => none
  | _ + 1, [] => none
  | f + 1, c :: rest =>
    if c = 'n' then
      match rest with
      | 'u' :: 'l' :: 'l' :: r => some (.null, r)
      | _ => none
    else if c = 't' then
      match rest with
      | 'r' :: 'u' :: 'e' :: r => some (.bool true, r)
      | _ => none
    else if c = 'f' then
      match rest with
      | 'a' :: 'l' :: 's' :: 'e' :: r => some (.bool false, r)
      | _ => none
    else if c = '"' then
      (parseStrChars f rest).map (fun p => (.str p.1, p.2))
    else if c = '[' then
      if rest.head? = some ']' then some (.arr [], rest.tail)
      else
        match parseJson f rest with
        | some (v, r1) =>
          (parseArrTail f r1).map (fun p => (.arr (v :: p.1), p.2))
        | none => none
    else if c = '\x7b' then
      if rest.head? = some '\x7d' then some (.obj [], rest.tail)
      else if rest.head? = some '"' then
        match parseStrChars f rest.tail with
        | some (k, r2) =>
          match r2 with
          | a :: b :: r3 =>
            if a = ':' ∧ b = ' ' then
              match parseJson f r3 with
              | some (v, r4) =>
                (parseObjTail f r4).map (fun p => (.obj ((k, v) :: p.1), p.2))
              | none => none
            else none
          | _ => none
        | none => none
      else none
    else parseNum (c :: rest)

/-- After one array item: either the closing bracket or `", "` and further
items. -/
def parseArrTail : Nat → List Char → Option (List Json × List Char)
  | 0, _ => none
  | f + 1, input =>
    match input with
    | [] => none
    | x :: rest =>
      if x = ']' then some ([], rest)
      else
        match rest with
        | y :: rest2 =>
          if x = ',' ∧ y = ' ' then
            match parseJson f rest2 with
            | some (v, r1) => (parseArrTail f r1).map (fun p => (v :: p.1, p.2))
            | none => none
          else none
        | [] => none

/-- After one object field: either the closing brace or `", "` and further
fields. -/
def parseObjTail : Nat → List Char → Option (List (List Char × Json) × List Char)
  | 0, _ => none
  | f + 1, input =>
    match input with
    | [] => none
    | x :: rest =>
      if x = '\x7d' then some ([], rest)
      else
        match rest with
        | y :: z :: rest2 =>
          if x = ',' ∧ y = ' ' ∧ z = '"' then
            match parseStrChars f rest2 with
            | some (k, r1) =>
              match r1 with
              | a :: b :: r2 =>
                if a = ':' ∧ b = ' ' then
                  match parseJson f r2 with
                  | some (v, r3) => (parseObjTail f r3).map (fun p => ((k, v) :: p.1, p.2))
                  | none => none
                else none
              | _ => none
            | none => none
          else none
        | _ => none

end

/-- Whether the next character (if any) is not a decimal digit — the
condition under which a serialized number is read back unambiguously. -/
def headNotDigit : List Char → Bool
  | [] => true
  | c :: _ => !(isDigitCh c)

lemma hexVal_hexDig (n : Nat) (h : n < 16) : hexVal (hexDig n) = some n := by
  interval_cases n <;> decide

lemma hexDig_toNat (n : Nat) (h : n < 10) : (hexDig n).toNat = 48 + n := by
  interval_cases n <;> decide

lemma isDigitCh_hexDig (n : Nat) (h : n < 10) : isDigitCh (hexDig n) = true := by
  interval_cases n <;> decide

lemma readHex4_hex4 (n : Nat) (h : n < 65536) (rest : List Char) :
    readHex4 (hex4 n ++ rest) = some (n, rest) := by
  simp only [hex4, List.cons_append, List.nil_append, readHex4]
  rw [hexVal_hexDig _ (Nat.mod_lt _ (by omega)), hexVal_hexDig _ (Nat.mod_lt _ (by omega)),
    hexVal_hexDig _ (Nat.mod_lt _ (by omega)), hexVal_hexDig _ (Nat.mod_lt _ (by omega))]
  simp only [Option.some.injEq, Prod.mk.injEq]
  exact ⟨by omega, trivial⟩

lemma parseDigits_stop (l : List Char) (h : headNotDigit l = true) (acc : Nat) :
    parseDigits l acc = (acc, l) := by
  cases l with
  | nil => rfl
  | cons c cs =>
    unfold headNotDigit at h
    simp only [Bool.not_eq_true'] at h
    unfold parseDigits
    simp [h]

lemma natChars_head : ∀ n : Nat, ∃ c cs, natChars n = c :: cs ∧ isDigitCh c = true := by
  intro n
  induction n using natChars.induct with
  | case1 n h =>
    exact ⟨hexDig n, [], by rw [natChars, if_pos h], isDigitCh_hexDig n h⟩
  | case2 n h ih =>
    obtain ⟨c, cs, hcc, hdig⟩ := ih
    exact ⟨c, cs ++ [hexDig (n % 10)],
      by rw [natChars, if_neg h, hcc, List.cons_append], hdig⟩

lemma parseDigits_digit (c : Char) (hc : isDigitCh c = true) (cs : List Char) (acc : Nat) :
    parseDigits (c :: cs) acc = parseDigits cs (10 * acc + (c.toNat - 48)) := by
  unfold parseDigits
  rw [if_pos hc]
  cases cs <;> rfl

lemma parseDigits_natChars : ∀ (n : Nat), ∀ (acc : Nat) (rest : List Char),
    parseDigits (natChars n ++ rest) acc
      = parseDigits rest (acc * 10 ^ (natChars n).length + n) := by
  intro n
  induction n using natChars.induct with
  | case1 n h =>
    intro acc rest
    rw [natChars, if_pos h]
    simp only [List.cons_append, List.nil_append, List.length_cons, List.length_nil]
    rw [parseDigits_digit _ (isDigitCh_hexDig n h), hexDig_toNat n h]
    congr 1
    simp only [zero_add, pow_one]
    omega
  | case2 n h ih =>
    intro acc rest
    rw [natChars, if_neg h, List.append_assoc, ih acc ([hexDig (n % 10)] ++ rest)]
    simp only [List.singleton_append]
    rw [parseDigits_digit _ (isDigitCh_hexDig _ (by omega)), hexDig_toNat _ (by omega)]
    congr 1
    simp only [List.length_append, List.length_cons, List.length_nil]
    have h1 : 48 + n % 10 - 48 = n % 10 := by omega
    rw [h1, pow_succ]
    have h10 : 10 * (n / 10) + n % 10 = n := by omega
    calc 10 * (acc * 10 ^ (natChars (n / 10)).length + n / 10) + n % 10
        = acc * (10 ^ (natChars (n / 10)).length * 10) + (10 * (n / 10) + n % 10) := by
          ring
      _ = acc * (10 ^ (natChars (n / 10)).length * 10) + n := by rw [h10]

lemma parseDigits_natChars_full (n : Nat) (rest : List Char)
    (hrest : headNotDigit rest = true) :
    parseDigits (natChars n ++ rest) 0 = (n, rest) := by
  rw [parseDigits_natChars n 0 rest, parseDigits_stop rest hrest]
  simp

lemma parseNum_serInt (n : Int) (rest : List Char) (hrest : headNotDigit rest = true) :
    parseNum (serInt n ++ rest) = some (.num n, rest) := by
  obtain ⟨m, hm, hser⟩ : ∃ m : Nat, ((n < 0 → (m : Int) = -n) ∧ (0 ≤ n → (m : Int) = n))
      ∧ serInt n = (if n < 0 then ['-'] else []) ++ natChars m := by
    unfold serInt
    split
    · next hneg => exact ⟨n.natAbs, ⟨fun _ => by omega, fun h => by omega⟩, rfl⟩
    · next hpos => exact ⟨n.toNat, ⟨fun h => by omega, fun _ => by omega⟩, rfl⟩
  obtain ⟨c, cs, hcc, hdig⟩ := natChars_head m
  rw [hser]
  by_cases hneg : n < 0
  · rw [if_pos hneg, hcc]
    simp only [List.cons_append, List.nil_append]
    simp only [parseNum]
    rw [if_pos trivial, if_pos hdig]
    simp only [← List.cons_append, ← hcc, parseDigits_natChars_full m rest hrest]
    simp only [Option.some.injEq, Prod.mk.injEq, Json.num.injEq]
    exact ⟨by rw [hm.1 hneg]; omega, trivial⟩
  · rw [if_neg hneg, hcc]
    simp only [List.cons_append, List.nil_append]
    simp only [parseNum]
    have hcminus : ¬(c = '-') := by
      intro hceq
      subst hceq
      exact absurd hdig (by decide)
    rw [if_neg hcminus, if_pos hdig]
    simp only [← List.cons_append, ← hcc, parseDigits_natChars_full m rest hrest]
    simp only [Option.some.injEq, Prod.mk.injEq, Json.num.injEq]
    exact ⟨by rw [hm.2 (by omega)], trivial⟩

lemma char_valid_range (c : Char) :
    c.toNat < 0xd800 ∨ (0xdfff < c.toNat ∧ c.toNat < 0x110000) := by
  have h := c.valid
  unfold UInt32.isValidChar at h
  unfold Nat.isValidChar at h
  exact h

lemma psc_esc_quote (f : Nat) (X : List Char) :
    parseStrChars (f + 1) ('\\' :: '"' :: X)
      = (parseStrChars f X).map (fun p => ('"' :: p.1, p.2)) := rfl

lemma psc_esc_backslash (f : Nat) (X : List Char) :
    parseStrChars (f + 1) ('\\' :: '\\' :: X)
      = (parseStrChars f X).map (fun p => ('\\' :: p.1, p.2)) := rfl

lemma psc_esc_b (f : Nat) (X : List Char) :
    parseStrChars (f + 1) ('\\' :: 'b' :: X)
      = (parseStrChars f X).map (fun p => ('\x08' :: p.1, p.2)) := rfl

lemma psc_esc_f (f : Nat) (X : List Char) :
    parseStrChars (f + 1) ('\\' :: 'f' :: X)
      = (parseStrChars f X).map (fun p => ('\x0c' :: p.1, p.2)) := rfl

lemma psc_esc_n (f : Nat) (X : List Char) :
    parseStrChars (f + 1) ('\\' :: 'n' :: X)
      = (parseStrChars f X).map (fun p => ('\n' :: p.1, p.2)) := rfl

lemma psc_esc_r (f : Nat) (X : List Char) :
    parseStrChars (f + 1) ('\\' :: 'r' :: X)
      = (parseStrChars f X).map (fun p => ('\r' :: p.1, p.2)) := rfl

lemma psc_esc_t (f : Nat) (X : List Char) :
    parseStrChars (f + 1) ('\\' :: 't' :: X)
      = (parseStrChars f X).map (fun p => ('\t' :: p.1, p.2)) := rfl

lemma psc_generic (f : Nat) (c : Char) (X : List Char) (h1 : ¬(c = '"'))
    (h2 : ¬(c = '\\')) :
    parseStrChars (f + 1) (c :: X)
      = (parseStrChars f X).map (fun p => (c :: p.1, p.2)) := by
  simp only [parseStrChars]
  rw [if_neg h1, if_neg h2]

lemma psc_u_step (f : Nat) (Y : List Char) :
    parseStrChars (f + 1) ('\\' :: 'u' :: Y)
      = match readHex4 Y with
        | none => none
        | some (h, r2) =>
          if 0xD800 ≤ h ∧ h < 0xDC00 then
            match r2 with
            | e2 :: u2 :: r3 =>
              if e2 = '\\' ∧ u2 = 'u' then
                match readHex4 r3 with
                | some (lo, r4) =>
                  if 0xDC00 ≤ lo ∧ lo < 0xE000 then
                    (parseStrChars f r4).map (fun p =>
                      (Char.ofNat (0x10000 + (h - 0xD800) * 0x400 + (lo - 0xDC00)) :: p.1,
                        p.2))
                  else none
                | none => none
              else none
            | _ => none
          else if 0xDC00 ≤ h ∧ h < 0xE000 then none
          else (parseStrChars f r2).map (fun p => (Char.ofNat h :: p.1, p.2)) := rfl

lemma psc_u (f : Nat) (v : Nat) (hv : v < 65536)
    (hlow : ¬(0xD800 ≤ v ∧ v < 0xE000)) (X : List Char) :
    parseStrChars (f + 1) ('\\' :: 'u' :: (hex4 v ++ X))
      = (parseStrChars f X).map (fun p => (Char.ofNat v :: p.1, p.2)) := by
  have h1 : ¬(0xD800 ≤ v ∧ v < 0xDC00) := by omega
  have h2 : ¬(0xDC00 ≤ v ∧ v < 0xE000) := by omega
  rw [psc_u_step, readHex4_hex4 v hv]
  dsimp only
  rw [if_neg h1, if_neg h2]

lemma psc_surrogate (f : Nat) (v : Nat) (hv1 : 0x10000 ≤ v) (hv2 : v < 0x110000)
    (X : List Char) :
    parseStrChars (f + 1) ('\\' :: 'u' :: (hex4 (0xD800 + (v - 0x10000) / 0x400)
      ++ ('\\' :: 'u' :: (hex4 (0xDC00 + (v - 0x10000) % 0x400) ++ X))))
      = (parseStrChars f X).map (fun p => (Char.ofNat v :: p.1, p.2)) := by
  have hhi : 0xD800 + (v - 0x10000) / 0x400 < 65536 := by omega
  have hlo : 0xDC00 + (v - 0x10000) % 0x400 < 65536 := by omega
  have hhiS : 0xD800 ≤ 0xD800 + (v - 0x10000) / 0x400
      ∧ 0xD800 + (v - 0x10000) / 0x400 < 0xDC00 := by omega
  have hloS : 0xDC00 ≤ 0xDC00 + (v - 0x10000) % 0x400
      ∧ 0xDC00 + (v - 0x10000) % 0x400 < 0xE000 := by omega
  rw [psc_u_step, readHex4_hex4 _ hhi]
  dsimp only
  rw [if_pos hhiS]
  rw [if_pos (⟨rfl, rfl⟩ : ('\\' : Char) = '\\' ∧ ('u' : Char) = 'u')]
  rw [readHex4_hex4 _ hlo]
  dsimp only
  rw [if_pos hloS]
  have hval : 0x10000 + (0xD800 + (v - 0x10000) / 0x400 - 0xD800) * 0x400
      + (0xDC00 + (v - 0x10000) % 0x400 - 0xDC00) = v := by omega
  rw [hval]

set_option maxHeartbeats 2000000 in
lemma parseStrChars_escape : ∀ (s : List Char) (rest : List Char) (f : Nat),
    s.length + 1 ≤ f → parseStrChars f (escStr s ++ '"' :: rest) = some (s, rest) := by
  intro s
  induction s with
  | nil =>
    intro rest f hf
    cases f with
    | zero => omega
    | succ f => rfl
  | cons c s ih =>
    intro rest f hf
    cases f with
    | zero => simp at hf
    | succ f =>
      have ihX := ih rest f (by simp only [List.length_cons] at hf; omega)
      simp only [escStr, List.append_assoc, List.cons_append]
      unfold escapeChar
      split_ifs with h1 h2 h3 h4 h5 h6 h7 h8 h9 h10
      · subst h1
        rw [List.cons_append, List.cons_append, List.nil_append,
          psc_esc_quote, ihX]
        rfl
      · subst h2
        rw [List.cons_append, List.cons_append, List.nil_append,
          psc_esc_backslash, ihX]
        rfl
      · subst h3
        rw [List.cons_append, List.cons_append, List.nil_append, psc_esc_b, ihX]
        rfl
      · subst h4
        rw [List.cons_append, List.cons_append, List.nil_append, psc_esc_f, ihX]
        rfl
      · subst h5
        rw [List.cons_append, List.cons_append, List.nil_append, psc_esc_n, ihX]
        rfl
      · subst h6
        rw [List.cons_append, List.cons_append, List.nil_append, psc_esc_r, ihX]
        rfl
      · subst h7
        rw [List.cons_append, List.cons_append, List.nil_append, psc_esc_t, ihX]
        rfl
      · rw [List.cons_append, List.cons_append,
          psc_u f c.toNat (by omega) (by omega), ihX, Option.map_some']
        rw [Char.ofNat_toNat]
      · rw [List.singleton_append, psc_generic f c _ h1 h2, ihX]
        rfl
      · have hrange := char_valid_range c
        rw [List.cons_append, List.cons_append,
          psc_u f c.toNat (by omega) (by omega), ihX, Option.map_some']
        rw [Char.ofNat_toNat]
      · have hrange := char_valid_range c
        simp only [List.append_assoc, List.cons_append]
        rw [psc_surrogate f c.toNat (by omega) (by omega), ihX, Option.map_some']
        rw [Char.ofNat_toNat]

lemma weightJ_pos : ∀ j : Json, 1 ≤ weightJ j := by
  intro j
  cases j with
  | null => simp [weightJ]
  | bool b => simp [weightJ]
  | num n => simp [weightJ]
  | str s => simp only [weightJ]; omega
  | arr xs => cases xs <;> simp only [weightJ] <;> omega
  | obj fs =>
    cases fs with
    | nil => simp only [weightJ]; omega
    | cons kv t =>
      obtain ⟨k, v⟩ := kv
      simp only [weightJ]
      omega

lemma weightTail_pos : ∀ xs : List Json, 1 ≤ weightTail xs := by
  intro xs
  cases xs <;> simp only [weightTail] <;> omega

lemma weightFields_pos : ∀ fs : List (List Char × Json), 1 ≤ weightFields fs := by
  intro fs
  cases fs with
  | nil => simp only [weightFields]; omega
  | cons kv t =>
    obtain ⟨k, v⟩ := kv
    simp only [weightFields]
    omega

lemma serInt_head (n : Int) :
    ∃ c cs, serInt n = c :: cs ∧ (c = '-' ∨ isDigitCh c = true) := by
  unfold serInt
  split
  · exact ⟨'-', _, rfl, Or.inl rfl⟩
  · obtain ⟨c, cs, hcc, hd⟩ := natChars_head n.toNat
    exact ⟨c, cs, hcc, Or.inr hd⟩

lemma digit_ne_keyword (c : Char) (h : isDigitCh c = true) :
    ¬(c = 'n') ∧ ¬(c = 't') ∧ ¬(c = 'f') ∧ ¬(c = '"') ∧ ¬(c = '[') ∧ ¬(c = '\x7b') := by
  refine ⟨fun hc => absurd h ?_, fun hc => absurd h ?_, fun hc => absurd h ?_,
    fun hc => absurd h ?_, fun hc => absurd h ?_, fun hc => absurd h ?_⟩ <;>
      subst hc <;> decide

lemma serJson_head_flags : ∀ j : Json,
    ∃ c cs, serJson j = c :: cs ∧ ¬(c = ']') ∧ ¬(c = '\x7d') := by
  intro j
  cases j with
  | null => exact ⟨'n', ['u', 'l', 'l'], by simp [serJson, nullChars], by decide, by decide⟩
  | bool b =>
    cases b
    · exact ⟨'f', ['a', 'l', 's', 'e'], by simp [serJson, falseChars], by decide, by decide⟩
    · exact ⟨'t', ['r', 'u', 'e'], by simp [serJson, trueChars], by decide, by decide⟩
  | num n =>
    obtain ⟨c, cs, hcc, hcd⟩ := serInt_head n
    refine ⟨c, cs, by simp only [serJson]; exact hcc, ?_, ?_⟩
    · rcases hcd with rfl | hd
      · decide
      · intro hc; subst hc; exact absurd hd (by decide)
    · rcases hcd with rfl | hd
      · decide
      · intro hc; subst hc; exact absurd hd (by decide)
  | str s => exact ⟨'"', escStr s ++ ['"'], by simp [serJson], by decide, by decide⟩
  | arr xs =>
    cases xs with
    | nil => exact ⟨'[', [']'], by simp [serJson], by decide, by decide⟩
    | cons x t =>
      exact ⟨'[', serJson x ++ serItemsTail t, by simp [serJson], by decide, by decide⟩
  | obj fs =>
    cases fs with
    | nil => exact ⟨'\x7b', ['\x7d'], by simp [serJson], by decide, by decide⟩
    | cons kv t =>
      obtain ⟨k, v⟩ := kv
      exact ⟨'\x7b', '"' :: (escStr k ++ ('"' :: ':' :: ' ' :: (serJson v ++ serFieldsTail t))),
        by simp [serJson], by decide, by decide⟩

lemma serJson_append_head_ne (j : Json) (r : List Char) :
    ¬((serJson j ++ r).head? = some ']') ∧ ¬((serJson j ++ r).head? = some '\x7d') := by
  obtain ⟨c, cs, hcc, h1, h2⟩ := serJson_head_flags j
  rw [hcc, List.cons_append, List.head?_cons]
  constructor <;> intro h <;> injection h with h
  · exact h1 h
  · exact h2 h

lemma head_cons_ne (c d : Char) (hne : ¬(c = d)) (l : List Char) :
    ¬((c :: l).head? = some d) := by
  intro h
  rw [List.head?_cons] at h
  injection h with h
  exact hne h

lemma headNotDigit_serItemsTail (t : List Json) (rest : List Char) :
    headNotDigit (serItemsTail t ++ rest) = true := by
  cases t with
  | nil => rfl
  | cons x t => rfl

lemma headNotDigit_serFieldsTail (t : List (List Char × Json)) (rest : List Char) :
    headNotDigit (serFieldsTail t ++ rest) = true := by
  cases t with
  | nil => rfl
  | cons kv t => obtain ⟨k, v⟩ := kv; rfl

/-- The side condition under which a serialized value followed by `rest`
parses back unambiguously: only a trailing number could fuse with a digit
that immediately follows it. -/
def numDelimOk : Json → List Char → Prop
  | .num _, rest => headNotDigit rest = true
  | _, _ => True

lemma numDelimOk_of (j : Json) (rest : List Char) (h : headNotDigit rest = true) :
    numDelimOk j rest := by
  cases j <;> first | exact h | trivial

lemma pj_quote (f : Nat) (X : List Char) :
    parseJson (f + 1) ('"' :: X)
      = (parseStrChars f X).map (fun p => (Json.str p.1, p.2)) := rfl

lemma pj_lbracket (f : Nat) (X : List Char) :
    parseJson (f + 1) ('[' :: X)
      = if X.head? = some ']' then some (.arr [], X.tail)
        else
          match parseJson f X with
          | some (v, r1) => (parseArrTail f r1).map (fun p => (.arr (v :: p.1), p.2))
          | none => none := rfl

lemma pj_lbrace (f : Nat) (X : List Char) :
    parseJson (f + 1) ('\x7b' :: X)
      = if X.head? = some '\x7d' then some (.obj [], X.tail)
        else if X.head? = some '"' then
          match parseStrChars f X.tail with
          | some (k, r2) =>
            match r2 with
            | a :: b :: r3 =>
              if a = ':' ∧ b = ' ' then
                match parseJson f r3 with
                | some (v, r4) =>
                  (parseObjTail f r4).map (fun p => (.obj ((k, v) :: p.1), p.2))
                | none => none
              else none
            | _ => none
          | none => none
        else none := rfl

lemma pj_parseNum (f : Nat) (c : Char) (X : List Char)
    (hn : ¬(c = 'n')) (ht : ¬(c = 't')) (hf : ¬(c = 'f')) (hq : ¬(c = '"'))
    (hb : ¬(c = '[')) (hbr : ¬(c = '\x7b')) :
    parseJson (f + 1) (c :: X) = parseNum (c :: X) := by
  simp only [parseJson]
  rw [if_neg hn, if_neg ht, if_neg hf, if_neg hq, if_neg hb, if_neg hbr]

lemma pat_comma (f : Nat) (X : List Char) :
    parseArrTail (f + 1) (',' :: ' ' :: X)
      = match parseJson f X with
        | some (v, r1) => (parseArrTail f r1).map (fun p => (v :: p.1, p.2))
        | none => none := rfl

lemma pot_comma (f : Nat) (X : List Char) :
    parseObjTail (f + 1) (',' :: ' ' :: '"' :: X)
      = match parseStrChars f X with
        | some (k, r1) =>
          match r1 with
          | a :: b :: r2 =>
            if a = ':' ∧ b = ' ' then
              match parseJson f r2 with
              | some (v, r3) => (parseObjTail f r3).map (fun p => ((k, v) :: p.1, p.2))
              | none => none
            else none
          | _ => none
        | none => none := rfl

/-- The parser is a left inverse of the serializer: with enough fuel, any
serialized value followed by any suffix parses back to exactly that value
and suffix (for a trailing number the suffix must not begin with a digit),
and likewise for item and field tails. -/
theorem parse_ser_roundtrip : ∀ fuel : Nat,
    (∀ (j : Json) (rest : List Char), weightJ j ≤ fuel → numDelimOk j rest →
      parseJson fuel (serJson j ++ rest) = some (j, rest))
    ∧ (∀ (xs : List Json) (rest : List Char), weightTail xs ≤ fuel →
      parseArrTail fuel (serItemsTail xs ++ rest) = some (xs, rest))
    ∧ (∀ (fs : List (List Char × Json)) (rest : List Char), weightFields fs ≤ fuel →
      parseObjTail fuel (serFieldsTail fs ++ rest) = some (fs, rest)) := by
  intro fuel
  induction fuel using Nat.strong_induction_on with
  | _ fuel ih =>
    cases fuel with
    | zero =>
      refine ⟨?_, ?_, ?_⟩
      · intro j rest hw hd
        have := weightJ_pos j
        omega
      · intro xs rest hw
        have := weightTail_pos xs
        omega
      · intro fs rest hw
        have := weightFields_pos fs
        omega
    | succ f =>
      have hlt : f < f + 1 := by omega
      have ihJ := (ih f hlt).1
      have ihT := (ih f hlt).2.1
      have ihF := (ih f hlt).2.2
      refine ⟨?_, ?_, ?_⟩
      · intro j rest hw hd
        cases j with
        | null =>
          simp only [serJson, nullChars, List.cons_append, List.nil_append]
          rfl
        | bool b =>
          cases b <;>
            (simp only [serJson, trueChars, falseChars, List.cons_append, List.nil_append]; rfl)
        | num n =>
          obtain ⟨c, cs, hcc, hcd⟩ := serInt_head n
          have hser : serJson (.num n) = serInt n := by simp only [serJson]
          rw [hser, hcc, List.cons_append]
          have hne : ¬(c = 'n') ∧ ¬(c = 't') ∧ ¬(c = 'f') ∧ ¬(c = '"')
              ∧ ¬(c = '[') ∧ ¬(c = '\x7b') := by
            rcases hcd with rfl | hdg
            · exact ⟨by decide, by decide, by decide, by decide, by decide, by decide⟩
            · exact digit_ne_keyword c hdg
          rw [pj_parseNum f c _ hne.1 hne.2.1 hne.2.2.1 hne.2.2.2.1
            hne.2.2.2.2.1 hne.2.2.2.2.2]
          rw [← List.cons_append, ← hcc]
          exact parseNum_serInt n rest hd
        | str s =>
          simp only [serJson, List.cons_append, List.append_assoc, List.singleton_append,
            List.nil_append]
          rw [pj_quote, parseStrChars_escape s rest f ?_]
          · rfl
          · simp only [weightJ] at hw
            omega
        | arr xs =>
          cases xs with
          | nil =>
            simp only [serJson, List.cons_append, List.nil_append]
            rfl
          | cons x t =>
            simp only [serJson, List.cons_append, List.append_assoc]
            rw [pj_lbracket]
            rw [if_neg (serJson_append_head_ne x (serItemsTail t ++ rest)).1]
            simp only [weightJ] at hw
            have hpx := weightJ_pos x
            have hpt := weightTail_pos t
            rw [ihJ x (serItemsTail t ++ rest) (by omega)
              (numDelimOk_of x _ (headNotDigit_serItemsTail t rest))]
            dsimp only
            rw [ihT t rest (by omega)]
            rfl
        | obj fs =>
          cases fs with
          | nil =>
            simp only [serJson, List.cons_append, List.nil_append]
            rfl
          | cons kv t =>
            obtain ⟨k, v⟩ := kv
            simp only [serJson, List.cons_append, List.append_assoc]
            rw [pj_lbrace]
            rw [if_neg (head_cons_ne '"' '\x7d' (by decide) _)]
            simp only [List.head?_cons, List.tail_cons]
            rw [if_pos trivial]
            simp only [weightJ] at hw
            have hpv := weightJ_pos v
            have hpt := weightFields_pos t
            rw [parseStrChars_escape k _ f (by omega)]
            dsimp only
            rw [if_pos ⟨rfl, rfl⟩]
            rw [ihJ v (serFieldsTail t ++ rest) (by omega)
              (numDelimOk_of v _ (headNotDigit_serFieldsTail t rest))]
            dsimp only
            rw [ihF t rest (by omega)]
            rfl
      · intro xs rest hw
        cases xs with
        | nil =>
          simp only [serItemsTail, List.cons_append, List.nil_append]
          rfl
        | cons x t =>
          simp only [serItemsTail, List.cons_append, List.append_assoc]
          rw [pat_comma]
          simp only [weightTail] at hw
          have hpx := weightJ_pos x
          have hpt := weightTail_pos t
          rw [ihJ x (serItemsTail t ++ rest) (by omega)
            (numDelimOk_of x _ (headNotDigit_serItemsTail t rest))]
          dsimp only
          rw [ihT t rest (by omega)]
          rfl
      · intro fs rest hw
        cases fs with
        | nil =>
          simp only [serFieldsTail, List.cons_append, List.nil_append]
          rfl
        | cons kv t =>
          obtain ⟨k, v⟩ := kv
          simp only [serFieldsTail, List.cons_append, List.append_assoc]
          rw [pot_comma]
          simp only [weightFields] at hw
          have hpv := weightJ_pos v
          have hpt := weightFields_pos t
          rw [parseStrChars_escape k _ f (by omega)]
          dsimp only
          rw [if_pos ⟨rfl, rfl⟩]
          rw [ihJ v (serFieldsTail t ++ rest) (by omega)
            (numDelimOk_of v _ (headNotDigit_serFieldsTail t rest))]
          dsimp only
          rw [ihF t rest (by omega)]
          rfl

lemma hexDig_ascii (m : Nat) (h : m < 16) : (hexDig m).toNat < 128 := by
  interval_cases m <;> decide

lemma hex4_ascii (n : Nat) : ∀ b ∈ hex4 n, b.toNat < 128 := by
  intro b hb
  simp only [hex4, List.mem_cons, List.mem_singleton, List.not_mem_nil, or_false] at hb
  rcases hb with rfl | rfl | rfl | rfl <;> exact hexDig_ascii _ (by omega)

set_option maxHeartbeats 2000000 in
lemma escapeChar_len_pos (c : Char) : 1 ≤ (escapeChar c).length := by
  unfold escapeChar
  split_ifs <;> simp [hex4]

set_option maxHeartbeats 2000000 in
lemma escapeChar_ascii (c : Char) : ∀ b ∈ escapeChar c, b.toNat < 128 := by
  intro b hb
  unfold escapeChar at hb
  split_ifs at hb with h1 h2 h3 h4 h5 h6 h7 h8 h9 h10
  · fin_cases hb <;> decide
  · fin_cases hb <;> decide
  · fin_cases hb <;> decide
  · fin_cases hb <;> decide
  · fin_cases hb <;> decide
  · fin_cases hb <;> decide
  · fin_cases hb <;> decide
  · simp only [List.mem_cons] at hb
    rcases hb with rfl | rfl | hb
    · decide
    · decide
    · exact hex4_ascii _ b hb
  · simp only [List.mem_singleton] at hb
    subst hb
    omega
  · simp only [List.mem_cons] at hb
    rcases hb with rfl | rfl | hb
    · decide
    · decide
    · exact hex4_ascii _ b hb
  · simp only [List.mem_append, List.mem_cons] at hb
    rcases hb with (rfl | rfl | hb) | (rfl | rfl | hb)
    · decide
    · decide
    · exact hex4_ascii _ b hb
    · decide
    · decide
    · exact hex4_ascii _ b hb

lemma escStr_len (s : List Char) : s.length ≤ (escStr s).length := by
  induction s with
  | nil => simp [escStr]
  | cons c t ih =>
    simp only [escStr, List.length_cons, List.length_append]
    have := escapeChar_len_pos c
    omega

lemma escStr_ascii (s : List Char) : ∀ b ∈ escStr s, b.toNat < 128 := by
  induction s with
  | nil => intro b hb; simp [escStr] at hb
  | cons c t ih =>
    intro b hb
    simp only [escStr, List.mem_append] at hb
    rcases hb with hb | hb
    · exact escapeChar_ascii c b hb
    · exact ih b hb

lemma natChars_ascii : ∀ (m : Nat) (c : Char), c ∈ natChars m → c.toNat < 128 := by
  intro m
  induction m using natChars.induct with
  | case1 m h =>
    intro c hc
    rw [natChars, if_pos h] at hc
    simp only [List.mem_singleton] at hc
    subst hc
    exact hexDig_ascii m (by omega)
  | case2 m h ih =>
    intro c hc
    rw [natChars, if_neg h] at hc
    simp only [List.mem_append, List.mem_singleton] at hc
    rcases hc with hc | rfl
    · exact ih c hc
    · exact hexDig_ascii _ (by omega)

lemma serInt_ascii (n : Int) : ∀ c ∈ serInt n, c.toNat < 128 := by
  unfold serInt
  split <;> intro c hc
  · simp only [List.mem_cons] at hc
    rcases hc with rfl | hc
    · decide
    · exact natChars_ascii _ c hc
  · exact natChars_ascii _ c hc

lemma serInt_len_pos (n : Int) : 1 ≤ (serInt n).length := by
  obtain ⟨c, cs, hcc, _⟩ := serInt_head n
  rw [hcc]
  simp

/-- Combined bound on serialized output: the parser fuel `weightJ` never
exceeds the serialized length, and every serialized character is ASCII
(json.dumps' `ensure_ascii=True`). -/
theorem serJson_bounds : ∀ n : Nat,
    (∀ j : Json, weightJ j ≤ n →
      weightJ j ≤ (serJson j).length ∧ ∀ b ∈ serJson j, b.toNat < 128)
    ∧ (∀ xs : List Json, weightTail xs ≤ n →
      weightTail xs ≤ (serItemsTail xs).length ∧ ∀ b ∈ serItemsTail xs, b.toNat < 128)
    ∧ (∀ fs : List (List Char × Json), weightFields fs ≤ n →
      weightFields fs ≤ (serFieldsTail fs).length ∧ ∀ b ∈ serFieldsTail fs, b.toNat < 128) := by
  intro n
  induction n using Nat.strong_induction_on with
  | _ n ih =>
    refine ⟨?_, ?_, ?_⟩
    · intro j hw
      cases j with
      | null =>
        refine ⟨by simp [weightJ, serJson, nullChars], ?_⟩
        intro b hb
        simp only [serJson, nullChars] at hb
        fin_cases hb <;> decide
      | bool b =>
        cases b
        · refine ⟨by simp [weightJ, serJson, falseChars], ?_⟩
          intro x hx
          simp only [serJson, falseChars] at hx
          fin_cases hx <;> decide
        · refine ⟨by simp [weightJ, serJson, trueChars], ?_⟩
          intro x hx
          simp only [serJson, trueChars] at hx
          fin_cases hx <;> decide
      | num m =>
        refine ⟨?_, ?_⟩
        · simp only [weightJ, serJson]
          exact serInt_len_pos m
        · simp only [serJson]
          exact serInt_ascii m
      | str s =>
        refine ⟨?_, ?_⟩
        · simp only [weightJ, serJson, List.length_cons, List.length_append,
            List.length_singleton]
          have := escStr_len s
          omega
        · intro b hb
          simp only [serJson, List.mem_cons, List.mem_append, List.mem_singleton] at hb
          rcases hb with rfl | hb | rfl | h
          · decide
          · exact escStr_ascii s b hb
          · decide
          · simp at h
      | arr xs =>
        cases xs with
        | nil =>
          refine ⟨by simp [weightJ, serJson], ?_⟩
          intro b hb
          simp only [serJson] at hb
          fin_cases hb <;> decide
        | cons x t =>
          simp only [weightJ] at hw
          have hpx := weightJ_pos x
          have hpt := weightTail_pos t
          have hx := (ih (weightJ x) (by omega)).1 x (le_refl _)
          have ht := (ih (weightTail t) (by omega)).2.1 t (le_refl _)
          refine ⟨?_, ?_⟩
          · simp only [weightJ, serJson, List.length_cons, List.length_append]
            omega
          · intro b hb
            simp only [serJson, List.mem_cons, List.mem_append] at hb
            rcases hb with rfl | hb | hb
            · decide
            · exact hx.2 b hb
            · exact ht.2 b hb
      | obj fs =>
        cases fs with
        | nil =>
          refine ⟨by simp [weightJ, serJson], ?_⟩
          intro b hb
          simp only [serJson] at hb
          fin_cases hb <;> decide
        | cons kv t =>
          obtain ⟨k, v⟩ := kv
          simp only [weightJ] at hw
          have hpv := weightJ_pos v
          have hpt := weightFields_pos t
          have hv := (ih (weightJ v) (by omega)).1 v (le_refl _)
          have ht := (ih (weightFields t) (by omega)).2.2 t (le_refl _)
          refine ⟨?_, ?_⟩
          · simp only [weightJ, serJson, List.length_cons, List.length_append]
            have := escStr_len k
            omega
          · intro b hb
            simp only [serJson, List.mem_cons, List.mem_append] at hb
            rcases hb with rfl | rfl | hb | rfl | rfl | rfl | hb | hb
            · decide
            · decide
            · exact escStr_ascii k b hb
            · decide
            · decide
            · decide
            · exact hv.2 b hb
            · exact ht.2 b hb
    · intro xs hw
      cases xs with
      | nil =>
        refine ⟨by simp [weightTail, serItemsTail], ?_⟩
        intro b hb
        simp only [serItemsTail] at hb
        fin_cases hb
        decide
      | cons x t =>
        simp only [weightTail] at hw
        have hpx := weightJ_pos x
        have hpt := weightTail_pos t
        have hx := (ih (weightJ x) (by omega)).1 x (le_refl _)
        have ht := (ih (weightTail t) (by omega)).2.1 t (le_refl _)
        refine ⟨?_, ?_⟩
        · simp only [weightTail, serItemsTail, List.length_cons, List.length_append]
          omega
        · intro b hb
          simp only [serItemsTail, List.mem_cons, List.mem_append] at hb
          rcases hb with rfl | rfl | hb | hb
          · decide
          · decide
          · exact hx.2 b hb
          · exact ht.2 b hb
    · intro fs hw
      cases fs with
      | nil =>
        refine ⟨by simp [weightFields, serFieldsTail], ?_⟩
        intro b hb
        simp only [serFieldsTail] at hb
        fin_cases hb
        decide
      | cons kv t =>
        obtain ⟨k, v⟩ := kv
        simp only [weightFields] at hw
        have hpv := weightJ_pos v
        have hpt := weightFields_pos t
        have hv := (ih (weightJ v) (by omega)).1 v (le_refl _)
        have ht := (ih (weightFields t) (by omega)).2.2 t (le_refl _)
        refine ⟨?_, ?_⟩
        · simp only [weightFields, serFieldsTail, List.length_cons, List.length_append]
          have := escStr_len k
          omega
        · intro b hb
          simp only [serFieldsTail, List.mem_cons, List.mem_append] at hb
          rcases hb with rfl | rfl | rfl | hb | rfl | rfl | rfl | hb | hb
          · decide
          · decide
          · decide
          · exact escStr_ascii k b hb
          · decide
          · decide
          · decide
          · exact hv.2 b hb
          · exact ht.2 b hb

/-- UTF-8 encoding of one character (`str.encode("utf-8")`, 1-4 bytes). -/
def utf8EncodeChar (c : Char) : List Nat :=
  let n := c.toNat
  if n < 0x80 then [n]
  else if n < 0x800 then [0xC0 + n / 0x40, 0x80 + n % 0x40]
  else if n < 0x10000 then
    [0xE0 + n / 0x1000, 0x80 + n / 0x40 % 0x40, 0x80 + n % 0x40]
  else
    [0xF0 + n / 0x40000, 0x80 + n / 0x1000 % 0x40, 0x80 + n / 0x40 % 0x40, 0x80 + n % 0x40]

/-- UTF-8 encoding of a string, as a byte (Nat) list. -/
def utf8Encode : List Char → List Nat
  | [] => []
  | c :: t => utf8EncodeChar c ++ utf8Encode t

/-- Is `b` a UTF-8 continuation byte? -/
def utf8Cont (b : Nat) : Prop := 0x80 ≤ b ∧ b < 0xC0

instance : DecidablePred utf8Cont := fun b => by unfold utf8Cont; infer_instance

/-- Decode one UTF-8 sequence whose lead byte is `b`: the decoded scalar
and the remaining bytes.  Rejects malformed, overlong, surrogate and
out-of-range sequences. -/
def utf8DecodeOneAux (b : Nat) (rest : List Nat) : Option (Char × List Nat) :=
  if b < 0x80 then some (Char.ofNat b, rest)
  else if b < 0xC2 then none
  else if b < 0xE0 then
    match rest with
    | b2 :: rest2 =>
      if utf8Cont b2 then some (Char.ofNat ((b - 0xC0) * 0x40 + (b2 - 0x80)), rest2)
      else none
    | [] => none
  else if b < 0xF0 then
    match rest with
    | b2 :: b3 :: rest2 =>
      if utf8Cont b2 ∧ utf8Cont b3 then
        let v := (b - 0xE0) * 0x1000 + (b2 - 0x80) * 0x40 + (b3 - 0x80)
        if v < 0x800 ∨ (0xD800 ≤ v ∧ v < 0xE000) then none
        else some (Char.ofNat v, rest2)
      else none
    | _ => none
  else if b < 0xF5 then
    match rest with
    | b2 :: b3 :: b4 :: rest2 =>
      if utf8Cont b2 ∧ utf8Cont b3 ∧ utf8Cont b4 then
        let v := (b - 0xF0) * 0x40000 + (b2 - 0x80) * 0x1000
          + (b3 - 0x80) * 0x40 + (b4 - 0x80)
        if v < 0x10000 ∨ 0x110000 ≤ v then none
        else some (Char.ofNat v, rest2)
      else none
    | _ => none
  else none

/-- Fuel-driven UTF-8 decoding loop; the fuel bounds the number of decoded
characters, and an ASCII byte consumes exactly one unit. -/
def utf8DecodeGo : Nat → List Nat → Option (List Char)
  | _, [] => some []
  | 0, _ :: _ => none
  | f + 1, b :: rest =>
    match utf8DecodeOneAux b rest with
    | some (c, rest2) =>
      match utf8DecodeGo f rest2 with
      | some cs => some (c :: cs)
      | none => none
    | none => none

/-- UTF-8 decoding (the inverse boundary used when reading the relay's
byte payload back). -/
def utf8Decode (bs : List Nat) : Option (List Char) := utf8DecodeGo bs.length bs

lemma utf8DecodeOneAux_ascii (b : Nat) (hb : b < 0x80) (rest : List Nat) :
    utf8DecodeOneAux b rest = some (Char.ofNat b, rest) := by
  unfold utf8DecodeOneAux
  rw [if_pos hb]

lemma utf8DecodeGo_ascii : ∀ (s : List Char), (∀ c ∈ s, c.toNat < 128) →
    utf8DecodeGo (utf8Encode s).length (utf8Encode s) = some s := by
  intro s
  induction s with
  | nil => intro _; rfl
  | cons c t ih =>
    intro h
    have hc : c.toNat < 128 := h c (List.mem_cons_self c t)
    have henc : utf8EncodeChar c = [c.toNat] := by
      unfold utf8EncodeChar
      rw [if_pos hc]
    rw [show utf8Encode (c :: t) = utf8EncodeChar c ++ utf8Encode t from rfl, henc,
      List.singleton_append]
    rw [List.length_cons, utf8DecodeGo, utf8DecodeOneAux_ascii c.toNat hc]
    dsimp only
    rw [ih (fun x hx => h x (List.mem_cons_of_mem c hx)), Char.ofNat_toNat]

lemma utf8_ascii_roundtrip (s : List Char) (h : ∀ c ∈ s, c.toNat < 128) :
    utf8Decode (utf8Encode s) = some s :=
  utf8DecodeGo_ascii s h

/-- The `_id` key of MongoDB documents, stripped before relay. -/
def idKey : List Char := ['_', 'i', 'd']

/-- The `clean` dict of `_record_to_firehose_format` line 85: the record
without its storage-internal `_id` field, key order preserved. -/
def removeMongoId (record : List (List Char × Json)) : List (List Char × Json) :=
  record.filter (fun kv => kv.1 ≠ idKey)

/-- Embedding of `FirehoseClient._record_to_firehose_format` (lines 82-86):
`(json.dumps(clean) + "\n").encode("utf-8")`. -/
def recordToFirehoseFormat (record : List (List Char × Json)) : List Nat :=
  utf8Encode (serJson (.obj (removeMongoId record)) ++ ['\n'])

/-- Read a relay payload back: UTF-8 decode, parse the JSON object, check
the trailing newline. -/
def parseRelayPayload (bs : List Nat) : Option (List (List Char × Json)) :=
  match utf8Decode bs with
  | some cs =>
    match parseJson cs.length cs with
    | some (.obj kvs, r) => if r = ['\n'] then some kvs else none
    | _ => none
  | none => none

/-- C9: serializing any record to the relay's newline-terminated JSON byte
format and parsing the JSON back yields an object with exactly the same
keys (in order) and values as the input record, minus the
storage-internal `_id` field, which is stripped before relay. -/
theorem c9_record_roundtrip (record : List (List Char × Json)) :
    parseRelayPayload (recordToFirehoseFormat record) = some (removeMongoId record) := by
  have hb := (serJson_bounds (weightJ (Json.obj (removeMongoId record)))).1
    (Json.obj (removeMongoId record)) (le_refl _)
  obtain ⟨hwlen, hascii⟩ := hb
  unfold recordToFirehoseFormat parseRelayPayload
  rw [utf8_ascii_roundtrip _ ?hasc]
  case hasc =>
    intro c hc
    rcases List.mem_append.mp hc with h | h
    · exact hascii c h
    · simp only [List.mem_singleton] at h
      subst h
      decide
  dsimp only
  rw [(parse_ser_roundtrip
      ((serJson (Json.obj (removeMongoId record)) ++ ['\n']).length)).1
    (Json.obj (removeMongoId record)) ['\n'] ?hw trivial]
  · dsimp only
    rw [if_pos rfl]
  case hw =>
    simp only [List.length_append, List.length_singleton]
    omega

end Pipeline
